import Mathlib

/-!
Verification of the QuaC-qiskit provider core against its specification.

The Python sources are shallowly embedded below.  Times, probabilities and
coupling frequencies are IEEE doubles in the source; they are modelled here
by exact values: a rational number, or one of the two infinities that the
source manipulates through `float('inf')`.  Fallible Python code (raised
exceptions such as `IndexError`, `KeyError`, `QuacBackendError`) is modelled
with `Option` / `Except` results.
-/

/-- Extended value: a Python float that is either `-inf`, finite, or `+inf`.
`NaN` never arises in the modelled code paths. -/
inductive XF where
  | ninf : XF
  | fin : ℚ → XF
  | inf : XF
deriving DecidableEq, Repr

namespace XF

/-- Division by the constant `100000` (the scaling applied by `to_array`);
both infinities are fixed by it, mirroring IEEE semantics. -/
def scaleDown : XF → XF
  | ninf => ninf
  | fin q => fin (q / 100000)
  | inf => inf

/-- Multiplication by the constant `100000` (applied by `from_array`). -/
def scaleUp : XF → XF
  | ninf => ninf
  | fin q => fin (q * 100000)
  | inf => inf

/-- The map `x ↦ 1 - x` used to rebuild measurement matrices from their
diagonals in `from_array`; `1 - inf = -inf` and `1 - (-inf) = inf` in IEEE. -/
def oneSub : XF → XF
  | ninf => inf
  | fin q => fin (1 - q)
  | inf => ninf

end XF

/-- A `2x2` measurement-error matrix `[[a, b], [c, d]]` as stored in
`QuacNoiseModel._meas_matrices` (entry `[prep][meas]`). -/
structure MeasMat where
  a : XF
  b : XF
  c : XF
  d : XF
deriving DecidableEq, Repr

/-- Embedding of `qiskit.providers.quac.models.QuacNoiseModel`: T1 and T2
time lists, optional per-qubit measurement matrices, and an optional ZZ
coupling dictionary (modelled as an association list over qubit pairs). -/
structure QuacNoiseModel where
  t1Times : List XF
  t2Times : List XF
  measMatrices : Option (List MeasMat) := none
  zz : Option (List ((ℕ × ℕ) × XF)) := none
deriving DecidableEq, Repr

namespace QuacNoiseModel

/-- Embedding of `QuacNoiseModel.has_t1`: Python computes
`not (float('inf') in self._t1_times and len(set(self._t1_times)) == 1)`;
`len(set(l))` is `l.dedup.length`. -/
def hasT1 (m : QuacNoiseModel) : Prop :=
  ¬(XF.inf ∈ m.t1Times ∧ m.t1Times.dedup.length = 1)

instance (m : QuacNoiseModel) : Decidable m.hasT1 :=
  inferInstanceAs (Decidable ¬_)

/-- Embedding of `QuacNoiseModel.has_t2`. -/
def hasT2 (m : QuacNoiseModel) : Prop :=
  ¬(XF.inf ∈ m.t2Times ∧ m.t2Times.dedup.length = 1)

instance (m : QuacNoiseModel) : Decidable m.hasT2 :=
  inferInstanceAs (Decidable ¬_)

/-- Embedding of `QuacNoiseModel.has_meas`: `self._meas_matrices is not None`. -/
def hasMeas (m : QuacNoiseModel) : Prop := m.measMatrices.isSome

instance (m : QuacNoiseModel) : Decidable m.hasMeas :=
  inferInstanceAs (Decidable (_ = true))

/-- Embedding of `QuacNoiseModel.has_zz`: `self._zz is not None`. -/
def hasZZ (m : QuacNoiseModel) : Prop := m.zz.isSome

instance (m : QuacNoiseModel) : Decidable m.hasZZ :=
  inferInstanceAs (Decidable (_ = true))

/-- Embedding of `QuacNoiseModel.get_noiseless_model`: T1 = T2 = `inf` for
every qubit and no measurement or ZZ blocks. -/
def getNoiselessModel (n : ℕ) : QuacNoiseModel :=
  { t1Times := List.replicate n XF.inf
    t2Times := List.replicate n XF.inf
    measMatrices := none
    zz := none }

/-- Diagonal elements of the measurement matrices, two per matrix in qubit
order: `to_array` appends `list(meas_matrix.diagonal())` for each matrix. -/
def diagElems : List MeasMat → List XF
  | [] => []
  | M :: ms => M.a :: M.d :: diagElems ms

/-- Canonical qubit pairs `(q1, q2)` with `q1 < q2 < n`, in the
lexicographic order produced by the double loop in `to_array` /
`from_array`. -/
def zzPairs (n : ℕ) : List (ℕ × ℕ) :=
  (List.range n).flatMap fun q1 =>
    (List.range n).filterMap fun q2 =>
      if q1 < q2 then some (q1, q2) else none

/-- Dictionary lookup `self._zz[(q1, q2)]` on the association list. -/
def zzLookup (zl : List ((ℕ × ℕ) × XF)) (p : ℕ × ℕ) : Option XF :=
  (zl.find? fun e => decide (e.1 = p)).map Prod.snd

/-- Looks up every pair in turn; `none` models the `KeyError` raised by
`self._zz[(qubit1, qubit2)]` when a canonical pair is missing. -/
def lookupAll (zl : List ((ℕ × ℕ) × XF)) : List (ℕ × ℕ) → Option (List XF)
  | [] => some []
  | p :: ps =>
    match zzLookup zl p, lookupAll zl ps with
    | some v, some vs => some (v :: vs)
    | _, _ => none

/-- Embedding of `QuacNoiseModel.to_array`: concatenates T1 times, T2 times,
measurement-matrix diagonals (if present) and ZZ values over canonical pairs
(if present), then divides everything by `100000`
(`np.array(list_form) / 100000`). -/
def toArray (m : QuacNoiseModel) : Option (List XF) :=
  let n := m.t1Times.length
  let base := m.t1Times ++ m.t2Times
  let withMeas :=
    match m.measMatrices with
    | none => base
    | some mats => base ++ diagElems mats
  match m.zz with
  | none => some (withMeas.map XF.scaleDown)
  | some zl =>
    match lookupAll zl (zzPairs n) with
    | none => none
    | some vals => some ((withMeas ++ vals).map XF.scaleDown)

/-- Rebuilds the per-qubit measurement matrices from the diagonal slice, as
the `for qubit in range(n_qubits)` loop of `from_array` does:
matrix `[[d0, 1 - d1], [1 - d0, d1]]` per consecutive diagonal pair.
`none` models the `IndexError` raised when the slice is too short. -/
def buildMats : ℕ → List XF → Option (List MeasMat)
  | 0, _ => some []
  | n + 1, d0 :: d1 :: rest =>
    (buildMats n rest).map fun ms =>
      ⟨d0, XF.oneSub d1, XF.oneSub d0, d1⟩ :: ms
  | _ + 1, _ => none

/-- Embedding of `QuacNoiseModel.from_array`: multiplies every entry by
`100000` (`list(100000 * array)`), slices off T1 and T2, then infers the
presence of the optional blocks purely from the length of the array. -/
def fromArray (arr : List XF) (n : ℕ) : Option QuacNoiseModel :=
  let la := arr.map XF.scaleUp
  let t1 := la.take n
  let t2 := (la.drop n).take n
  if arr.length = 2 * n then some ⟨t1, t2, none, none⟩
  else
    let measDiag := (la.drop (2 * n)).take (2 * n)
    match buildMats n measDiag with
    | none => none
    | some mats =>
      if arr.length = 4 * n then some ⟨t1, t2, some mats, none⟩
      else
        let zzComp := la.drop (4 * n)
        let pairs := zzPairs n
        if pairs.length ≤ zzComp.length then
          some ⟨t1, t2, some mats, some (pairs.zip zzComp)⟩
        else none

end QuacNoiseModel

/-- Embedding of a `QasmQobjInstruction`: gate name, target qubits, classical
memory slots (for measurements) and continuous parameters. -/
structure Instruction where
  name : String
  qubits : List ℕ
  memory : List ℕ := []
  params : List ℚ := []
deriving DecidableEq, Repr

/-- Maximum of the per-qubit next-free-time counters over the qubits of an
instruction (`max([scheduling_times[qubit] for qubit in instruction.qubits])`);
Python raises on an empty list, which valid instructions never have. -/
def maxStart (s : ℕ → ℚ) : List ℕ → ℚ
  | [] => 0
  | q :: qs => qs.foldl (fun acc q2 => max acc (s q2)) (s q)

/-- Effective gate length used by `list_schedule_experiment`: the hardware
duration lookup (already in nanoseconds), defaulting to `0` when unavailable,
except that `u1` gates are forced to `10` ns after the start time is chosen. -/
def effLength (dur : String → List ℕ → Option ℚ) (i : Instruction) : ℚ :=
  if i.name = "u1" then 10 else (dur i.name i.qubits).getD 0

/-- Advances the next-free-time counter of every qubit the instruction
touches to `t` (`scheduling_times[qubit] = gate_application_time;
scheduling_times[qubit] += gate_length`). -/
def schedUpdate (s : ℕ → ℚ) (qs : List ℕ) (t : ℚ) : ℕ → ℚ :=
  fun q => if q ∈ qs then t else s q

/-- Main scheduling loop of `list_schedule_experiment`, over instructions
already paired with their program index (the loop stores `instruction.id =
index`). -/
def scheduleAux (eff : Instruction → ℚ) :
    List (ℕ × Instruction) → (ℕ → ℚ) → List ((ℕ × Instruction) × ℚ)
  | [], _ => []
  | (idx, ins) :: rest, s =>
    let start := maxStart s ins.qubits
    ((idx, ins), start) ::
      scheduleAux eff rest (schedUpdate s ins.qubits (start + eff ins))

/-- Scheduled list in program order, before the final sort; every per-qubit
counter starts at `1` (`scheduling_times = [1] * n_qubits`). -/
def preSchedule (instrs : List Instruction)
    (dur : String → List ℕ → Option ℚ) : List ((ℕ × Instruction) × ℚ) :=
  scheduleAux (effLength dur) instrs.enum fun _ => 1

/-- Embedding of `list_schedule_experiment`: schedule in program order, then
`instruction_time_order.sort(key=lambda pair: pair[1])` — a stable sort by
start time, modelled by insertion sort on the time component. -/
def listScheduleExperiment (instrs : List Instruction)
    (dur : String → List ℕ → Option ℚ) : List ((ℕ × Instruction) × ℚ) :=
  List.insertionSort (fun a b => a.2 ≤ b.2) (preSchedule instrs dur)

/-- Loop of `choose_index`: `upper_limit += prob`, test
`lower_limit <= chooser < upper_limit`, else `lower_limit += prob` and
continue; `none` when the loop falls through. -/
def chooseIndexAux (u : ℚ) : List ℚ → ℚ → ℚ → ℕ → Option ℕ
  | [], _, _, _ => none
  | p :: rest, lower, upper, i =>
    let upper2 := upper + p
    if lower ≤ u ∧ u < upper2 then some i
    else chooseIndexAux u rest (lower + p) upper2 (i + 1)

/-- Embedding of `quac_qiskit.stat.util.choose_index` with the uniform draw
`u` (`random.random()`) made explicit; the fall-through `return 0` becomes
`Option.getD 0`. -/
def chooseIndex (probDist : List ℚ) (u : ℚ) : ℕ :=
  (chooseIndexAux u probDist 0 0 0).getD 0

/-- A dense rational matrix of explicit dimensions, modelling the
`scipy.sparse` matrices of `build_full_measurement_matrices`. -/
structure Mat where
  rows : ℕ
  cols : ℕ
  entry : ℕ → ℕ → ℚ

/-- A probability vector with explicit length (one entry per bitstring). -/
structure Vec where
  len : ℕ
  entry : ℕ → ℚ

/-- The `1x1` seed matrix `sparse.csr_matrix(np.array([1]))`. -/
def matOne : Mat := ⟨1, 1, fun _ _ => 1⟩

/-- The identity `sparse.eye 2` (and friends). -/
def eyeMat (n : ℕ) : Mat := ⟨n, n, fun i j => if i = j then 1 else 0⟩

/-- Kronecker product `sparse.kron`:
`(A ⊗ B)[i, j] = A[i / B.rows, j / B.cols] * B[i % B.rows, j % B.cols]`. -/
def kron (A B : Mat) : Mat :=
  ⟨A.rows * B.rows, A.cols * B.cols, fun i j =>
    A.entry (i / B.rows) (j / B.cols) * B.entry (i % B.rows) (j % B.cols)⟩

/-- Matrix-vector product `np.dot(matrix, column_vector)`. -/
def matVec (A : Mat) (v : Vec) : Vec :=
  ⟨A.rows, fun i => ∑ j ∈ Finset.range A.cols, A.entry i j * v.entry j⟩

/-- Total mass of a probability vector. -/
def sumVec (v : Vec) : ℚ := ∑ i ∈ Finset.range v.len, v.entry i

/-- Inner loop of `build_full_measurement_matrices`: Kronecker product over
tensor positions `0, ..., n-1`, placing the qubit's own matrix `M` at its
position and `sparse.eye(2)` everywhere else, seeded with `[[1]]`. -/
def expandedMeasMat (n qubit : ℕ) (M : Mat) : Mat :=
  (List.range n).foldl
    (fun acc ind => kron acc (if qubit = ind then M else eyeMat 2)) matOne

/-- Embedding of `QuacNoiseModel.build_full_measurement_matrices` (path with
`_meas_matrices` present): one expanded operator per qubit, in qubit order. -/
def buildFullMeasurementMatrices (n : ℕ) (mats : List Mat) : List Mat :=
  (List.range n).map fun q => expandedMeasMat n q (mats.getD q (eyeMat 2))

/-- Successive left-multiplications
`bitstring_probs = np.dot(expanded_qubit_meas_mat, bitstring_probs)`. -/
def applyMeasCorrections (ms : List Mat) (v : Vec) : Vec :=
  ms.foldl (fun acc M => matVec M acc) v

/-- Measurement-corrected probabilities of `QuacDensitySimulator._run_job`:
applied only when `job_noise_model.has_meas()`. -/
def correctedProbs (measMats : Option (List Mat)) (n : ℕ) (v : Vec) : Vec :=
  match measMats with
  | none => v
  | some mats => applyMeasCorrections (buildFullMeasurementMatrices n mats) v

/-- Bits of `bin(decimal_state)[2:].zfill(n_qubits)`, most significant
first, for states below `2 ^ n`. -/
def stateBits (n state : ℕ) : List Bool :=
  (List.range n).map fun i => decide (state / 2 ^ (n - 1 - i) % 2 = 1)

/-- Lookup in the qubit-to-classical-bits mapping (`qubit in
qubit_measurements`). -/
def measLookup (qm : List (ℕ × List ℕ)) (q : ℕ) : Option (List ℕ) :=
  (qm.find? fun e => decide (e.1 = q)).map Prod.snd

/-- Builds the classical register for one outcome state: start from
`["0"] * memory_slots`, then write each measured qubit's outcome bit into
each of its register slots. -/
def fillRegister (qm : List (ℕ × List ℕ)) (bits : List Bool)
    (memSlots : ℕ) : List Bool :=
  bits.enum.foldl
    (fun reg qb =>
      match measLookup qm qb.1 with
      | some slots => slots.foldl (fun r s => r.set s qb.2) reg
      | none => reg)
    (List.replicate memSlots false)

/-- Value of the register bitstring read most-significant-bit first
(`int(''.join(classical_register), 2)`). -/
def bitsToNat (bits : List Bool) : ℕ :=
  bits.foldl (fun acc b => 2 * acc + (if b then 1 else 0)) 0

/-- Python's `hex` of a natural number. -/
def pyHex (n : ℕ) : String := "0x" ++ (Nat.toDigits 16 n).asString

/-- Table key for one outcome state: fill the register, `reverse()` it to
Qiskit most-significant-bit format, and hex-encode. -/
def stateKey (nQubits memSlots : ℕ) (qm : List (ℕ × List ℕ))
    (state : ℕ) : String :=
  pyHex (bitsToNat ((fillRegister qm (stateBits nQubits state) memSlots).reverse))

/-- The `defaultdict` update `frequencies[key] += prob`, on an association
list in first-insertion order. -/
def bumpTable : List (String × ℚ) → String → ℚ → List (String × ℚ)
  | [], k, p => [(k, p)]
  | (k2, v) :: rest, k, p =>
    if k2 = k then (k2, v + p) :: rest else (k2, v) :: bumpTable rest k p

/-- Density-mode outcome table of `QuacDensitySimulator._run_job`: loop over
all outcome states, accumulating each state's probability under its register
key. -/
def densityTable (nQubits memSlots : ℕ) (qm : List (ℕ × List ℕ))
    (v : Vec) : List (String × ℚ) :=
  (List.range v.len).foldl
    (fun t state => bumpTable t (stateKey nQubits memSlots qm state) (v.entry state))
    []

/-- Sum of all probabilities recorded in an outcome table. -/
def tableSum (t : List (String × ℚ)) : ℚ := (t.map Prod.snd).sum

/-- Errors raised by the simulation adapter: `QuacOptionsError` for missing
noise configuration, and the two `QuacBackendError` messages
(`"No qubits measured!"` and `"Not enough gate times specified!"`). -/
inductive QuacError where
  | optionsError : QuacError
  | noMeasurement : QuacError
  | insufficientTiming : QuacError
deriving DecidableEq, Repr

/-- Calls made against the external `quac` engine, in program order. -/
inductive EngineEvent where
  | createInstance : EngineEvent
  | circuitInit (n : ℕ) : EngineEvent
  | addGate (gate : String) (qubits : List ℕ) (time : ℚ) (params : List ℚ) : EngineEvent
  | createQubits (n : ℕ) : EngineEvent
  | lindbladEmission (q : ℕ) (rate : ℚ) : EngineEvent
  | lindbladDephasing (q : ℕ) (rate : ℚ) : EngineEvent
  | createDensityMatrix : EngineEvent
  | startCircuit : EngineEvent
  | run (length : ℚ) (dt : ℚ) : EngineEvent
deriving DecidableEq, Repr

/-- Rate `1 / t` fed to the engine; `1 / inf = 0.0` in IEEE. (Lean's field
convention also sends `1 / 0` to `0` where Python would raise; the theorems
below never touch that corner.) -/
def XF.invRate : XF → ℚ
  | XF.ninf => 0
  | XF.fin q => 1 / q
  | XF.inf => 0

/-- Static simulator state: whether hardware was supplied, and the hardware
property lookups (gate lengths and T1/T2 times, already converted to ns);
`none` models `BackendPropertyError` / `AttributeError`. -/
structure SimConfig where
  hardwareSpecified : Bool
  duration : String → List ℕ → Option ℚ
  hardwareT1 : ℕ → ℚ
  hardwareT2 : ℕ → ℚ

/-- Injected `run_config` options; `gateTimes = []` models an absent (or
empty, equally falsy) `gate_times` list. -/
structure RunConfig where
  lindblad : Option (ℕ → ℚ × ℚ) := none
  noNoise : Bool := false
  gateTimes : List ℚ := []
  simulationLength : Option ℚ := none
  timeStep : Option ℚ := none

/-- Experiment payload: qubit count, classical memory slots, instructions. -/
structure Experiment where
  nQubits : ℕ
  memorySlots : ℕ
  instructions : List Instruction

/-- T1/T2 selection of the Lindblad loop: hardware times when specified and
not overridden, injected `lindblad` times next, otherwise infinite (no
noise). -/
def lindbladTimes (cfg : SimConfig) (rc : RunConfig) (q : ℕ) : XF × XF :=
  if cfg.hardwareSpecified && !rc.lindblad.isSome && !rc.noNoise then
    (XF.fin (cfg.hardwareT1 q), XF.fin (cfg.hardwareT2 q))
  else
    match rc.lindblad with
    | some lb =>
      if rc.noNoise then (XF.inf, XF.inf)
      else (XF.fin (lb q).1, XF.fin (lb q).2)
    | none => (XF.inf, XF.inf)

/-- Lindblad noise-injection calls (`add_lindblad_emission` /
`add_lindblad_dephasing` with `1/T1`, `1/T2`) for qubits `0, ..., n-1`. -/
def noiseEvents (cfg : SimConfig) (rc : RunConfig) (n : ℕ) : List EngineEvent :=
  (List.range n).flatMap fun q =>
    let tt := lindbladTimes cfg rc q
    [EngineEvent.lindbladEmission q tt.1.invRate,
     EngineEvent.lindbladDephasing q tt.2.invRate]

/-- Gate-translation table shared by the `_run_experiment*` variants:
`measure` and `barrier` add no gate; `cx` maps to `cnot`, `id` to `i`;
parametrized gates pass their parameters through; anything else is forwarded
under its own name as a single-qubit gate. -/
def gateEvents (i : Instruction) (t : ℚ) : List EngineEvent :=
  let q0 := i.qubits.headD 0
  if i.name = "measure" then []
  else if i.name = "barrier" then []
  else if i.name = "cx" then [.addGate "cnot" [q0, i.qubits.getD 1 0] t []]
  else if i.name = "cz" then [.addGate "cz" [q0, i.qubits.getD 1 0] t []]
  else if i.name = "u1" then [.addGate "u1" [q0] t [i.params.getD 0 0]]
  else if i.name = "u2" then
    [.addGate "u2" [q0] t [i.params.getD 0 0, i.params.getD 1 0]]
  else if i.name = "u3" then
    [.addGate "u3" [q0] t [i.params.getD 0 0, i.params.getD 1 0, i.params.getD 2 0]]
  else if i.name = "rx" ∨ i.name = "ry" ∨ i.name = "rz" then
    [.addGate i.name [q0] t [i.params.getD 0 0]]
  else if i.name = "id" then [.addGate "i" [q0] t []]
  else [.addGate i.name [q0] t []]

/-- The `defaultdict(lambda: [])` update
`qubit_measurements[instruction.qubits[0]].append(instruction.memory[0])`. -/
def addMeas : List (ℕ × List ℕ) → ℕ → ℕ → List (ℕ × List ℕ)
  | [], q, m => [(q, [m])]
  | (q2, l) :: rest, q, m =>
    if q2 = q then (q2, l ++ [m]) :: rest else (q2, l) :: addMeas rest q m

/-- Instruction-processing loop shared by the scheduled run path: emit the
translated gate calls and record measurements. -/
def processInstructions :
    List (Instruction × ℚ) → List (ℕ × List ℕ) →
    List EngineEvent × List (ℕ × List ℕ)
  | [], qm => ([], qm)
  | (i, t) :: rest, qm =>
    let evs := gateEvents i t
    let qm2 :=
      if i.name = "measure" then addMeas qm (i.qubits.headD 0) (i.memory.headD 0)
      else qm
    let r := processInstructions rest qm2
    (evs ++ r.1, r.2)

/-- Final per-qubit next-free-time counters after the scheduling loop
(`scheduling_times` once the `for` loop ends). -/
def finalSched (eff : Instruction → ℚ) :
    List (ℕ × Instruction) → (ℕ → ℚ) → (ℕ → ℚ)
  | [], s => s
  | (_, ins) :: rest, s =>
    finalSched eff rest
      (schedUpdate s ins.qubits (maxStart s ins.qubits + eff ins))

/-- Python truthiness of an optional numeric option (`run_config.get(...)`),
where both a missing key and an explicit `0` are falsy. -/
def optTruthy : Option ℚ → Bool
  | none => false
  | some x => !(x == 0)

/-- Embedding of `QuacSimulator._run_experiment`, recording every call made
to the external `quac` engine in order.  The result is the event trace
together with either the raised error or the returned
qubit-to-classical-bit mapping.  The inlined scheduler of this method is the
same loop as `list_schedule_experiment` but without the `u1` override. -/
def runExperiment (cfg : SimConfig) (rc : RunConfig) (exp : Experiment) :
    List EngineEvent × Except QuacError (List (ℕ × List ℕ)) :=
  let ev0 : List EngineEvent := [.createInstance]
  if !cfg.hardwareSpecified && !rc.lindblad.isSome && !rc.noNoise then
    (ev0, .error .optionsError)
  else
    let ev1 := ev0 ++ [.circuitInit exp.instructions.length]
    let eff := fun i : Instruction => ((cfg.duration i.name i.qubits).getD 0)
    let sched := List.insertionSort (fun a b => a.2 ≤ b.2)
      (scheduleAux eff exp.instructions.enum fun _ => 1)
    let pr := processInstructions (sched.map fun e => (e.1.2, e.2)) []
    let ev2 := ev1 ++ pr.1
    if pr.2.length = 0 then (ev2, .error .noMeasurement)
    else
      let finalTimes := finalSched eff exp.instructions.enum fun _ => 1
      let defaultLen :=
        if rc.gateTimes = [] then maxStart finalTimes (List.range exp.nQubits)
        else rc.gateTimes.getLastD 0 + 500
      let simLength :=
        if optTruthy rc.simulationLength then (rc.simulationLength.getD 0)
        else defaultLen
      let dt := if optTruthy rc.timeStep then (rc.timeStep.getD 0) else 10
      (ev2 ++ [.createQubits exp.nQubits] ++ noiseEvents cfg rc exp.nQubits
          ++ [.createDensityMatrix, .startCircuit, .run simLength dt],
       .ok pr.2)

/-- Instruction loop of `_run_experiment_no_scheduling`: when `gate_times`
was supplied, `gate_times[time_index]` is fetched for every instruction and
an `IndexError` becomes the insufficient-timing error; otherwise gate times
accumulate from the per-gate lengths (default `100` ns).  Returns the events
emitted so far paired with either the error or the final measurement map and
`total_circuit_time`. -/
def noSchedAux (cfg : SimConfig) (gts : List ℚ) :
    List (ℕ × Instruction) → ℚ → ℚ → List (ℕ × List ℕ) →
    List EngineEvent × Except QuacError (List (ℕ × List ℕ) × ℚ)
  | [], total, _, qm => ([], .ok (qm, total))
  | (ti, ins) :: rest, total, prev, qm =>
    if gts ≠ [] then
      match gts.get? ti with
      | none => ([], .error .insufficientTiming)
      | some gt =>
        let evs := gateEvents ins gt
        let qm2 :=
          if ins.name = "measure" then addMeas qm (ins.qubits.headD 0) (ins.memory.headD 0)
          else qm
        let r := noSchedAux cfg gts rest total gt qm2
        (evs ++ r.1, r.2)
    else
      let gl := (cfg.duration ins.name ins.qubits).getD 100
      let gt := if ti = 0 then 1 else prev + gl
      let evs := gateEvents ins gt
      let qm2 :=
        if ins.name = "measure" then addMeas qm (ins.qubits.headD 0) (ins.memory.headD 0)
        else qm
      let r := noSchedAux cfg gts rest (total + gl) gt qm2
      (evs ++ r.1, r.2)

/-- Embedding of `QuacSimulator._run_experiment_no_scheduling` with its
engine-event trace (`total_circuit_time` starts at `1`; the no-scheduling
default simulation length is `gate_times[-1] + 1`). -/
def runExperimentNoScheduling (cfg : SimConfig) (rc : RunConfig)
    (exp : Experiment) :
    List EngineEvent × Except QuacError (List (ℕ × List ℕ)) :=
  let ev0 : List EngineEvent := [.createInstance]
  if !cfg.hardwareSpecified && !rc.lindblad.isSome && !rc.noNoise then
    (ev0, .error .optionsError)
  else
    let ev1 := ev0 ++ [.circuitInit exp.instructions.length]
    let r := noSchedAux cfg rc.gateTimes exp.instructions.enum 1 0 []
    let ev2 := ev1 ++ r.1
    match r.2 with
    | .error e => (ev2, .error e)
    | .ok (qm, total) =>
      if qm.length = 0 then (ev2, .error .noMeasurement)
      else
        let defaultLen :=
          if rc.gateTimes = [] then total else rc.gateTimes.getLastD 0 + 1
        let simLength :=
          if optTruthy rc.simulationLength then (rc.simulationLength.getD 0)
          else defaultLen
        let dt := if optTruthy rc.timeStep then (rc.timeStep.getD 0) else 10
        (ev2 ++ [.createQubits exp.nQubits] ++ noiseEvents cfg rc exp.nQubits
            ++ [.createDensityMatrix, .startCircuit, .run simLength dt],
         .ok qm)

/-- Embedding of `QuacJob`: the `_future` slot (set exactly when the job has
been handed to the executor; `BasicAerJob.__init__` leaves it `None`) plus a
ghost counter of how many executor submissions were actually dispatched. -/
structure QuacJob where
  future : Option ℕ := none
  dispatched : ℕ := 0
deriving DecidableEq, Repr

/-- The `JobError("QuaC job already submitted.")` raised by resubmission. -/
inductive JobError where
  | alreadySubmitted : JobError
deriving DecidableEq, Repr

/-- Embedding of `QuacJob.submit`: raise if `_future` is already set,
otherwise dispatch exactly one execution and store the future handle. -/
def QuacJob.submit (j : QuacJob) : Except JobError QuacJob :=
  if j.future.isSome then .error .alreadySubmitted
  else .ok { future := some j.dispatched, dispatched := j.dispatched + 1 }

/-- Repeatedly calls `submit`; a raised `JobError` leaves the job unchanged,
as a Python exception does. -/
def QuacJob.submitMany : ℕ → QuacJob → QuacJob
  | 0, j => j
  | n + 1, j =>
    QuacJob.submitMany n
      (match j.submit with
       | .ok j2 => j2
       | .error _ => j)

/-- Column-stochasticity: every column of the matrix sums to `1` (the noise
model invariant on measurement matrices). -/
def colStochastic (A : Mat) : Prop :=
  ∀ j < A.cols, ∑ i ∈ Finset.range A.rows, A.entry i j = 1

/-- Cumulative sum `p[0] + ... + p[k-1]` of a probability list. -/
def prefixSum (p : List ℚ) (k : ℕ) : ℚ := ((p.take k).sum)

/-!  Theorems.  Each claim of the specification is settled below; helper
lemmas come first. -/

theorem dedup_length_one_iff {l : List XF} :
    l.dedup.length = 1 ↔ ∃ a, l ≠ [] ∧ ∀ x ∈ l, x = a := by
  constructor
  · intro h
    obtain ⟨a, ha⟩ := List.length_eq_one.mp h
    refine ⟨a, ?_, ?_⟩
    · rintro rfl
      simp [List.dedup_nil] at ha
    · intro x hx
      have : x ∈ l.dedup := List.mem_dedup.mpr hx
      rw [ha] at this
      simpa using this
  · rintro ⟨a, hne, hall⟩
    have hmem : a ∈ l.dedup := by
      rcases List.exists_mem_of_ne_nil l hne with ⟨x, hx⟩
      have := hall x hx
      subst this
      exact List.mem_dedup.mpr hx
    have hnd : l.dedup.Nodup := l.nodup_dedup
    have hsub : ∀ b ∈ l.dedup, b = a := fun b hb => hall b (List.mem_dedup.mp hb)
    cases hdl : l.dedup with
    | nil => rw [hdl] at hmem; simp at hmem
    | cons x rest =>
      have hx : x = a := hsub x (hdl ▸ List.mem_cons_self x rest)
      have hrest : rest = [] := by
        by_contra hr
        obtain ⟨y, hy⟩ := List.exists_mem_of_ne_nil rest hr
        have hya : y = a := hsub y (hdl ▸ List.mem_cons_of_mem x hy)
        rw [hdl] at hnd
        exact (List.nodup_cons.mp hnd).1 (by rw [hx, ← hya]; exact hy)
      simp [hrest]

theorem sentinel_iff (l : List XF) :
    (XF.inf ∈ l ∧ l.dedup.length = 1) ↔
      ∃ k, 1 ≤ k ∧ l = List.replicate k XF.inf := by
  constructor
  · rintro ⟨hinf, hded⟩
    obtain ⟨a, hne, hall⟩ := dedup_length_one_iff.mp hded
    have ha : a = XF.inf := (hall _ hinf).symm
    subst ha
    refine ⟨l.length, ?_, ?_⟩
    · exact Nat.one_le_iff_ne_zero.mpr (by simpa [List.length_eq_zero] using hne)
    · exact List.eq_replicate_of_mem hall
  · rintro ⟨k, hk, rfl⟩
    constructor
    · exact List.mem_replicate.mpr ⟨Nat.one_le_iff_ne_zero.mp hk, rfl⟩
    · exact dedup_length_one_iff.mpr
        ⟨XF.inf, List.ne_nil_of_length_pos (by simpa using hk),
         fun x hx => (List.mem_replicate.mp hx).2⟩

/-- C6 counterexample: the claim asserts `get_noiseless_model(n)` has
`has_t1() == has_t2() == False` for every `n`, but at `n = 0` the T1/T2
lists are empty, `float('inf') in []` is false, and both return `True`. -/
theorem hasT1_noiseless_zero_counterexample :
    QuacNoiseModel.hasT1 (QuacNoiseModel.getNoiselessModel 0) ∧
      QuacNoiseModel.hasT2 (QuacNoiseModel.getNoiselessModel 0) := by
  constructor <;> decide

/-- C6 (amended to `n ≥ 1`): `has_t1()` (symmetrically `has_t2()`) is false
exactly when the time list is the all-infinite single-valued sentinel, i.e.
a nonempty constant-`inf` list; `get_noiseless_model n` has both false for
every `n ≥ 1`; and a T1 list of finite, non-uniform values makes `has_t1()`
true. -/
theorem hasT1_sentinel_characterization :
    (∀ m : QuacNoiseModel,
      (¬ m.hasT1 ↔ ∃ k, 1 ≤ k ∧ m.t1Times = List.replicate k XF.inf) ∧
      (¬ m.hasT2 ↔ ∃ k, 1 ≤ k ∧ m.t2Times = List.replicate k XF.inf)) ∧
    (∀ n, 1 ≤ n →
      ¬ (QuacNoiseModel.getNoiselessModel n).hasT1 ∧
      ¬ (QuacNoiseModel.getNoiselessModel n).hasT2) ∧
    (∀ m : QuacNoiseModel,
      (∀ t ∈ m.t1Times, t ≠ XF.inf ∧ t ≠ XF.ninf) →
      (∃ x ∈ m.t1Times, ∃ y ∈ m.t1Times, x ≠ y) → m.hasT1) := by
  refine ⟨fun m => ⟨?_, ?_⟩, fun n hn => ⟨?_, ?_⟩, fun m hfin hnonu => ?_⟩
  · rw [QuacNoiseModel.hasT1, not_not]; exact sentinel_iff _
  · rw [QuacNoiseModel.hasT2, not_not]; exact sentinel_iff _
  · rw [QuacNoiseModel.hasT1, not_not]
    exact (sentinel_iff _).mpr ⟨n, hn, rfl⟩
  · rw [QuacNoiseModel.hasT2, not_not]
    exact (sentinel_iff _).mpr ⟨n, hn, rfl⟩
  · intro ⟨hinf, hded⟩
    obtain ⟨x, hx, y, hy, hxy⟩ := hnonu
    obtain ⟨a, -, hall⟩ := dedup_length_one_iff.mp hded
    exact hxy ((hall x hx).trans (hall y hy).symm)

theorem hasT1_sentinel_characterization_witness :
    (¬ (QuacNoiseModel.getNoiselessModel 3).hasT1 ∧
      ¬ (QuacNoiseModel.getNoiselessModel 3).hasT2) ∧
    QuacNoiseModel.hasT1 ⟨[XF.fin 60000, XF.fin 70000], [XF.inf, XF.inf], none, none⟩ :=
  ⟨hasT1_sentinel_characterization.2.1 3 (by decide),
   hasT1_sentinel_characterization.2.2
     ⟨[XF.fin 60000, XF.fin 70000], [XF.inf, XF.inf], none, none⟩
     (by decide) (by decide)⟩

theorem prefixSum_cons (p : ℚ) (rest : List ℚ) (k : ℕ) :
    prefixSum (p :: rest) (k + 1) = p + prefixSum rest k := by
  simp [prefixSum]

theorem chooseIndexAux_spec (u : ℚ) :
    ∀ (l : List ℚ) (a : ℚ) (i : ℕ), (∀ x ∈ l, 0 ≤ x) → a ≤ u →
    ((∃ k, k < l.length ∧ u < a + prefixSum l (k + 1)) →
      ∃ kk, chooseIndexAux u l a a i = some (i + kk) ∧ kk < l.length ∧
        u < a + prefixSum l (kk + 1) ∧
        ∀ j < kk, ¬ u < a + prefixSum l (j + 1)) ∧
    ((∀ k < l.length, ¬ u < a + prefixSum l (k + 1)) →
      chooseIndexAux u l a a i = none) := by
  intro l
  induction l with
  | nil =>
    intro a i _ _
    exact ⟨fun ⟨k, hk, _⟩ => absurd hk (by simp), fun _ => rfl⟩
  | cons p rest ih =>
    intro a i h0 ha
    by_cases hcase : u < a + p
    · have hfind : chooseIndexAux u (p :: rest) a a i = some i := by
        simp [chooseIndexAux, ha, hcase]
      refine ⟨fun _ => ⟨0, by simpa using hfind, by simp, ?_, by omega⟩,
              fun hnone => absurd ?_ (hnone 0 (by simp))⟩
      · simpa [prefixSum_cons, prefixSum] using hcase
      · simpa [prefixSum_cons, prefixSum] using hcase
    · have hstep : chooseIndexAux u (p :: rest) a a i
          = chooseIndexAux u rest (a + p) (a + p) (i + 1) := by
        simp [chooseIndexAux, hcase]
      have ha2 : a + p ≤ u := not_lt.mp hcase
      have h0r : ∀ x ∈ rest, 0 ≤ x := fun x hx => h0 x (List.mem_cons_of_mem _ hx)
      obtain ⟨ihsome, ihnone⟩ := ih (a + p) (i + 1) h0r ha2
      constructor
      · rintro ⟨k, hk, hks⟩
        have hk1 : ∃ k2, k2 < rest.length ∧ u < (a + p) + prefixSum rest (k2 + 1) := by
          rcases k with - | k2
          · exact absurd (by simpa [prefixSum_cons, prefixSum] using hks) hcase
          · exact ⟨k2, by simpa using hk, by
              have := hks
              rw [prefixSum_cons] at this
              linarith [this]⟩
        obtain ⟨kk, hfind, hlt, hbig, hmin⟩ := ihsome hk1
        refine ⟨kk + 1, ?_, by simpa using hlt, ?_, ?_⟩
        · rw [hstep, hfind]; ring_nf
        · rw [prefixSum_cons]; linarith [hbig]
        · intro j hj
          rcases j with - | j2
          · simpa [prefixSum_cons, prefixSum] using hcase
          · intro hcon
            exact hmin j2 (by omega) (by rw [prefixSum_cons] at hcon; linarith [hcon])
      · intro hnone
        rw [hstep]
        apply ihnone
        intro k hk hcon
        exact hnone (k + 1) (by simpa using hk)
          (by rw [prefixSum_cons]; linarith [hcon])

/-- C7 counterexample: for the empty probability list (vacuously a list of
non-negative probabilities) and draw `u = 0`, `choose_index` returns `0`,
which is not a valid index of the list — the claim's "never returns an
out-of-range index" fails. -/
theorem chooseIndex_nil_counterexample :
    chooseIndex [] 0 = 0 ∧ ¬ chooseIndex [] 0 < ([] : List ℚ).length := by
  constructor <;> decide

/-- C7 (amended to nonempty lists): for a nonempty list of non-negative
probabilities and a draw `u ∈ [0, 1)`, `choose_index` returns the smallest
index whose cumulative sum strictly exceeds `u` when one exists, returns `0`
when no prefix exceeds `u`, and in either case the result is in range. -/
theorem chooseIndex_spec (p : List ℚ) (u : ℚ) (h0 : ∀ x ∈ p, 0 ≤ x)
    (hne : p ≠ []) (hu0 : 0 ≤ u) (_hu1 : u < 1) :
    chooseIndex p u < p.length ∧
    ((∃ k, k < p.length ∧ u < prefixSum p (k + 1)) →
      u < prefixSum p (chooseIndex p u + 1) ∧
      ∀ j < chooseIndex p u, ¬ u < prefixSum p (j + 1)) ∧
    ((∀ k < p.length, ¬ u < prefixSum p (k + 1)) → chooseIndex p u = 0) := by
  obtain ⟨hsome, hnone⟩ := chooseIndexAux_spec u p 0 0 h0 hu0
  by_cases hex : ∃ k, k < p.length ∧ u < 0 + prefixSum p (k + 1)
  · obtain ⟨kk, hfind, hlt, hbig, hmin⟩ := hsome hex
    have hchoose : chooseIndex p u = kk := by
      simp [chooseIndex, hfind]
    refine ⟨by rw [hchoose]; exact hlt, fun _ => ⟨?_, ?_⟩, fun hall => ?_⟩
    · rw [hchoose]; linarith [hbig]
    · intro j hj hcon
      rw [hchoose] at hj
      exact hmin j hj (by linarith [hcon])
    · exact absurd hex (by push_neg; intro k hk; simpa using hall k hk)
  · have hall : ∀ k < p.length, ¬ u < 0 + prefixSum p (k + 1) := by
      push_neg at hex ⊢
      exact fun k hk => hex k hk
    have hchoose : chooseIndex p u = 0 := by
      simp [chooseIndex, hnone hall]
    refine ⟨by rw [hchoose]; exact List.length_pos.mpr hne,
            fun hex2 => ?_, fun _ => hchoose⟩
    exact absurd (by obtain ⟨k, hk, hks⟩ := hex2; exact ⟨k, hk, by simpa using hks⟩) hex

theorem chooseIndex_spec_witness :
    chooseIndex [(1 : ℚ)/2, 1/2] (3/4) < ([(1 : ℚ)/2, 1/2]).length ∧
    ((∃ k, k < ([(1 : ℚ)/2, 1/2]).length ∧
        (3 : ℚ)/4 < prefixSum [(1 : ℚ)/2, 1/2] (k + 1)) →
      (3 : ℚ)/4 < prefixSum [(1 : ℚ)/2, 1/2] (chooseIndex [(1 : ℚ)/2, 1/2] (3/4) + 1) ∧
      ∀ j < chooseIndex [(1 : ℚ)/2, 1/2] (3/4),
        ¬ (3 : ℚ)/4 < prefixSum [(1 : ℚ)/2, 1/2] (j + 1)) ∧
    ((∀ k < ([(1 : ℚ)/2, 1/2]).length,
        ¬ (3 : ℚ)/4 < prefixSum [(1 : ℚ)/2, 1/2] (k + 1)) →
      chooseIndex [(1 : ℚ)/2, 1/2] (3/4) = 0) :=
  chooseIndex_spec [(1 : ℚ)/2, 1/2] (3/4)
    (by intro x hx; rcases List.mem_cons.mp hx with h | hx2
        · norm_num [h]
        · rcases List.mem_cons.mp hx2 with h | h
          · norm_num [h]
          · simp at h)
    (by simp) (by norm_num) (by norm_num)

theorem submitMany_stuck :
    ∀ (n : ℕ) (j : QuacJob), j.future.isSome → QuacJob.submitMany n j = j := by
  intro n
  induction n with
  | zero => intro j _; rfl
  | succ n ih =>
    intro j hj
    have : j.submit = .error .alreadySubmitted := by
      simp [QuacJob.submit, hj]
    simp [QuacJob.submitMany, this]
    exact ih j hj

/-- C9: resubmitting an already-submitted `QuacJob` raises `JobError`
without dispatching again, and starting from a fresh job any number of
`submit` calls dispatches at most one execution. -/
theorem quacJob_submit_at_most_once (n : ℕ) (j j2 : QuacJob) :
    (QuacJob.submitMany n { future := none, dispatched := 0 }).dispatched ≤ 1 ∧
    (j.submit = .ok j2 →
      j2.submit = Except.error JobError.alreadySubmitted ∧ j2.dispatched = j.dispatched + 1) := by
  constructor
  · rcases n with - | n2
    · simp [QuacJob.submitMany]
    · have hfirst : QuacJob.submit { future := none, dispatched := 0 }
          = .ok { future := some 0, dispatched := 1 } := by
        simp [QuacJob.submit]
      simp only [QuacJob.submitMany, hfirst]
      rw [submitMany_stuck n2 _ (by simp)]
  · intro h
    rw [QuacJob.submit] at h
    by_cases hf : j.future.isSome
    · simp [hf] at h
    · simp [hf] at h
      constructor
      · simp [QuacJob.submit, ← h]
      · rw [← h]

theorem quacJob_submit_at_most_once_witness :
    (QuacJob.submitMany 3 { future := none, dispatched := 0 }).dispatched ≤ 1 ∧
    (QuacJob.submit { future := some 0, dispatched := 1 }
        = Except.error JobError.alreadySubmitted ∧
      (QuacJob.mk (some 0) 1).dispatched = (QuacJob.mk none 0).dispatched + 1) :=
  ⟨(quacJob_submit_at_most_once 3 ⟨none, 0⟩ ⟨some 0, 1⟩).1,
   (quacJob_submit_at_most_once 3 ⟨none, 0⟩ ⟨some 0, 1⟩).2 (by rfl)⟩

/-- C2: for the circuit `[H(q0), CX(q0,q1), M(q0,c0), M(q1,c1)]` with
durations `h ↦ 50` ns and `cx ↦ 300` ns (none for `measure`),
`list_schedule_experiment` keeps the program order and produces start times
exactly `[1, 51, 351, 351]`. -/
theorem listScheduleExperiment_hcx_example :
    listScheduleExperiment
      [⟨"h", [0], [], []⟩, ⟨"cx", [0, 1], [], []⟩,
       ⟨"measure", [0], [0], []⟩, ⟨"measure", [1], [1], []⟩]
      (fun name _ => if name = "h" then some 50
        else if name = "cx" then some 300 else none)
    = [((0, ⟨"h", [0], [], []⟩), 1), ((1, ⟨"cx", [0, 1], [], []⟩), 51),
       ((2, ⟨"measure", [0], [0], []⟩), 351), ((3, ⟨"measure", [1], [1], []⟩), 351)] := by
  norm_num +decide [listScheduleExperiment, preSchedule, List.enum, List.enumFrom, scheduleAux,
    maxStart, effLength, schedUpdate, List.insertionSort, List.orderedInsert]

namespace QuacNoiseModel

theorem scaleUp_scaleDown (x : XF) : x.scaleDown.scaleUp = x := by
  cases x with
  | ninf => rfl
  | inf => rfl
  | fin q =>
    simp only [XF.scaleDown, XF.scaleUp]
    rw [div_mul_cancel₀ q (by norm_num)]

theorem map_scaleUp_scaleDown (l : List XF) :
    (l.map XF.scaleDown).map XF.scaleUp = l := by
  rw [List.map_map]
  have h : XF.scaleUp ∘ XF.scaleDown = id := funext scaleUp_scaleDown
  rw [h, List.map_id]

theorem diagElems_length (ms : List MeasMat) :
    (diagElems ms).length = 2 * ms.length := by
  induction ms with
  | nil => rfl
  | cons M rest ih => simp [diagElems, ih]; ring

theorem buildMats_diagElems (ms : List MeasMat)
    (h : ∀ M ∈ ms, M.c = XF.oneSub M.a ∧ M.b = XF.oneSub M.d) :
    buildMats ms.length (diagElems ms) = some ms := by
  induction ms with
  | nil => rfl
  | cons M rest ih =>
    have hM := h M (List.mem_cons_self M rest)
    have hrest := ih fun M2 hM2 => h M2 (List.mem_cons_of_mem M hM2)
    have hfix : (⟨M.a, XF.oneSub M.d, XF.oneSub M.a, M.d⟩ : MeasMat) = M := by
      obtain ⟨h1, h2⟩ := hM
      cases M
      simp_all
    simp [diagElems, buildMats, hrest, hfix]

theorem lookupAll_isSome (zl : List ((ℕ × ℕ) × XF)) :
    ∀ ps : List (ℕ × ℕ), (∀ p ∈ ps, (zzLookup zl p).isSome) →
      ∃ vals, lookupAll zl ps = some vals ∧ vals.length = ps.length := by
  intro ps
  induction ps with
  | nil => exact fun _ => ⟨[], rfl, rfl⟩
  | cons p rest ih =>
    intro h
    obtain ⟨v, hv⟩ := Option.isSome_iff_exists.mp (h p (List.mem_cons_self p rest))
    obtain ⟨vals, hvals, hlen⟩ := ih fun p2 hp2 => h p2 (List.mem_cons_of_mem p hp2)
    exact ⟨v :: vals, by simp [lookupAll, hv, hvals], by simp [hlen]⟩

theorem zzLookup_cons (e : (ℕ × ℕ) × XF) (zl : List ((ℕ × ℕ) × XF)) (p : ℕ × ℕ) :
    zzLookup (e :: zl) p = if e.1 = p then some e.2 else zzLookup zl p := by
  simp only [zzLookup, List.find?_cons]
  by_cases h : e.1 = p
  · simp [h]
  · simp [h]

theorem lookupAll_zip (zl : List ((ℕ × ℕ) × XF)) :
    ∀ (ps : List (ℕ × ℕ)) (vals : List XF), lookupAll zl ps = some vals →
      ∀ p ∈ ps, zzLookup (ps.zip vals) p = zzLookup zl p := by
  intro ps
  induction ps with
  | nil => intro vals _ p hp; simp at hp
  | cons p0 rest ih =>
    intro vals hvals p hp
    rw [lookupAll] at hvals
    rcases h0 : zzLookup zl p0 with - | v0
    · rw [h0] at hvals; simp at hvals
    · rw [h0] at hvals
      rcases hr : lookupAll zl rest with - | vrest
      · rw [hr] at hvals; simp at hvals
      · rw [hr] at hvals
        simp only [Option.some_inj] at hvals
        subst hvals
        rw [List.zip_cons_cons, zzLookup_cons]
        rcases List.mem_cons.mp hp with rfl | hmem
        · simp [h0]
        · by_cases hpp : p0 = p
          · subst hpp
            simp [h0]
          · rw [if_neg hpp]
            exact ih vrest hr p hmem

theorem zzPairs_mem_01 (n : ℕ) (h : 2 ≤ n) : (0, 1) ∈ zzPairs n := by
  simp only [zzPairs, List.mem_flatMap, List.mem_filterMap]
  exact ⟨0, by simp; omega, 1, by simp; omega, by simp⟩

/-- C10: the flat-vector encoding is scaled.  `to_array` produces exactly
the concatenation [T1 block, T2 block, measurement diagonals, ZZ values]
with every entry divided by `100000`, and `from_array` interprets the vector
after multiplying every entry by `100000` (its T1/T2 components are the
scaled-up slices of the input vector). -/
theorem toArray_fromArray_scaling :
    (∀ (m : QuacNoiseModel) (a : List XF), m.toArray = some a →
      ∃ zzvals : List XF,
        (m.zz = none → zzvals = []) ∧
        (∀ zl, m.zz = some zl →
          lookupAll zl (zzPairs m.t1Times.length) = some zzvals) ∧
        a = (m.t1Times ++ m.t2Times
              ++ (match m.measMatrices with
                  | none => []
                  | some ms => diagElems ms)
              ++ zzvals).map XF.scaleDown) ∧
    (∀ (arr : List XF) (k : ℕ) (m2 : QuacNoiseModel),
      fromArray arr k = some m2 →
      m2.t1Times = (arr.map XF.scaleUp).take k ∧
      m2.t2Times = ((arr.map XF.scaleUp).drop k).take k) := by
  constructor
  · intro m a ha
    rw [toArray] at ha
    try dsimp only at ha
    rcases hzz : m.zz with - | zl <;> rw [hzz] at ha <;> try dsimp only at ha
    · refine ⟨[], fun _ => rfl, by simp, ?_⟩
      rcases hm : m.measMatrices with - | ms <;> rw [hm] at ha <;>
        simpa using ha.symm
    · rcases hla : lookupAll zl (zzPairs m.t1Times.length) with - | vals <;>
        rw [hla] at ha <;> try dsimp only at ha
      · exact absurd ha (by simp)
      · refine ⟨vals, by simp, fun zl2 hzl2 => ?_, ?_⟩
        · obtain rfl : zl = zl2 := by injection hzl2
          exact hla
        · rcases hm : m.measMatrices with - | ms <;> rw [hm] at ha <;>
            simp only [Option.some_inj] at ha <;> simp [← ha]
  · intro arr k m2 hm2
    rw [fromArray] at hm2
    try dsimp only at hm2
    by_cases h1 : arr.length = 2 * k
    · rw [if_pos h1] at hm2
      injection hm2 with h
      subst h
      exact ⟨rfl, rfl⟩
    · rw [if_neg h1] at hm2
      rcases hb : buildMats k (((arr.map XF.scaleUp).drop (2 * k)).take (2 * k))
          with - | mats <;> rw [hb] at hm2 <;> try dsimp only at hm2
      · exact absurd hm2 (by simp)
      · by_cases h4 : arr.length = 4 * k
        · rw [if_pos h4] at hm2
          injection hm2 with h
          subst h
          exact ⟨rfl, rfl⟩
        · rw [if_neg h4] at hm2
          by_cases h5 : (zzPairs k).length ≤ ((arr.map XF.scaleUp).drop (4 * k)).length
          · rw [if_pos h5] at hm2
            injection hm2 with h
            subst h
            exact ⟨rfl, rfl⟩
          · rw [if_neg h5] at hm2
            exact absurd hm2 (by simp)

end QuacNoiseModel

namespace QuacNoiseModel

/-- C1 counterexample: a perfectly well-formed two-qubit model with a ZZ
block but no measurement block serializes to a 5-entry vector, which
`from_array` misparses (the length-based inference assumes measurement
blocks come before ZZ): rebuilding the measurement matrices runs off the end
of the array (`IndexError`), so the round trip does not reproduce the model. -/
theorem roundtrip_zz_without_meas_counterexample :
    toArray ⟨[XF.inf, XF.inf], [XF.inf, XF.inf], none, some [((0, 1), XF.fin 2)]⟩
      = some [XF.inf, XF.inf, XF.inf, XF.inf, XF.fin (2 / 100000)] ∧
    fromArray [XF.inf, XF.inf, XF.inf, XF.inf, XF.fin (2 / 100000)] 2 = none := by
  constructor
  · rfl
  · rfl

/-- C1 (amended): for a well-formed model — equal-length T1/T2 lists, a
measurement block of column-stochastic matrices in a model of at least one
qubit, and a ZZ block only in the presence of a measurement block, defined
on all canonical pairs of a model of at least two qubits —
`from_array(to_array(m), n)` succeeds and reproduces the T1 times, T2 times,
measurement matrices, and ZZ coupling values exactly. -/
theorem roundtrip_exact (m : QuacNoiseModel) (n : ℕ)
    (hn : m.t1Times.length = n) (h2 : m.t2Times.length = n)
    (hmeas : ∀ ms, m.measMatrices = some ms → ms.length = n ∧ 1 ≤ n ∧
        ∀ M ∈ ms, M.c = XF.oneSub M.a ∧ M.b = XF.oneSub M.d)
    (hzzwf : ∀ zl, m.zz = some zl → 2 ≤ n ∧ m.measMatrices.isSome ∧
        ∀ p ∈ zzPairs n, (zzLookup zl p).isSome) :
    ∃ a m2, m.toArray = some a ∧ fromArray a n = some m2 ∧
      m2.t1Times = m.t1Times ∧ m2.t2Times = m.t2Times ∧
      m2.measMatrices = m.measMatrices ∧
      (m.zz = none → m2.zz = none) ∧
      (∀ zl, m.zz = some zl → ∃ zl2, m2.zz = some zl2 ∧
        ∀ p ∈ zzPairs n, zzLookup zl2 p = zzLookup zl p) := by
  rcases hzz : m.zz with - | zl
  · rcases hm : m.measMatrices with - | ms
    · -- no measurement, no ZZ: vector of length 2n
      refine ⟨(m.t1Times ++ m.t2Times).map XF.scaleDown,
        ⟨m.t1Times, m.t2Times, none, none⟩, ?_, ?_, rfl, rfl, rfl, fun _ => rfl,
        by intro zl2 h; exact absurd h (by simp)⟩
      · rw [toArray]
        rw [hzz, hm]
      · rw [fromArray]
        rw [map_scaleUp_scaleDown]
        have hlen : ((m.t1Times ++ m.t2Times).map XF.scaleDown).length = 2 * n := by
          simp [hn, h2]; ring
        rw [if_pos hlen]
        congr 1
        refine congrArg₂ (fun x y => mk x y none none) ?_ ?_
        · exact List.take_left' hn
        · rw [List.drop_left' hn, ← h2, List.take_length]
    · -- measurement block, no ZZ: vector of length 4n
      obtain ⟨hmlen, hn1, hcols⟩ := hmeas ms hm
      refine ⟨((m.t1Times ++ m.t2Times) ++ diagElems ms).map XF.scaleDown,
        ⟨m.t1Times, m.t2Times, some ms, none⟩, ?_, ?_, rfl, rfl, rfl, fun _ => rfl,
        by intro zl2 h; exact absurd h (by simp)⟩
      · rw [toArray]
        rw [hzz, hm]
      · rw [fromArray]
        rw [map_scaleUp_scaleDown]
        have hd : (diagElems ms).length = 2 * n := by rw [diagElems_length, hmlen]
        have hlen : (((m.t1Times ++ m.t2Times) ++ diagElems ms).map XF.scaleDown).length
            = 4 * n := by
          simp [hn, h2, diagElems_length, hmlen]; ring
        have hne2 : ¬ (((m.t1Times ++ m.t2Times) ++ diagElems ms).map XF.scaleDown).length
            = 2 * n := by
          rw [hlen]; omega
        rw [if_neg hne2]
        have h12 : (m.t1Times ++ m.t2Times).length = 2 * n := by simp [hn, h2]; ring
        have hdrop : ((m.t1Times ++ m.t2Times) ++ diagElems ms).drop (2 * n)
            = diagElems ms := List.drop_left' h12
        have htake : (((m.t1Times ++ m.t2Times) ++ diagElems ms).drop (2 * n)).take (2 * n)
            = diagElems ms := by rw [hdrop, ← hd, List.take_length]
        rw [htake]
        have hbuild : buildMats n (diagElems ms) = some ms := by
          rw [← hmlen]; exact buildMats_diagElems ms hcols
        dsimp only
        rw [hbuild]
        dsimp only
        rw [if_pos hlen]
        congr 1
        refine congrArg₂ (fun x y => mk x y (some ms) none) ?_ ?_
        · rw [List.append_assoc]; exact List.take_left' hn
        · rw [List.append_assoc, List.drop_left' hn, List.take_left' h2]
  · -- ZZ block present: forces a measurement block and n ≥ 2
    obtain ⟨hn2, hms, hlook⟩ := hzzwf zl hzz
    rcases hm : m.measMatrices with - | ms
    · rw [hm] at hms; simp at hms
    obtain ⟨hmlen, hn1, hcols⟩ := hmeas ms hm
    obtain ⟨vals, hvals, hvlen⟩ := lookupAll_isSome zl (zzPairs n) hlook
    have hL1 : 1 ≤ (zzPairs n).length :=
      List.length_pos.mpr (List.ne_nil_of_mem (zzPairs_mem_01 n hn2))
    refine ⟨(((m.t1Times ++ m.t2Times) ++ diagElems ms) ++ vals).map XF.scaleDown,
      ⟨m.t1Times, m.t2Times, some ms, some ((zzPairs n).zip vals)⟩, ?_, ?_, rfl, rfl,
      rfl, by intro h; exact absurd h (by simp), ?_⟩
    · rw [toArray]
      rw [hzz, hm, hn]
      dsimp only
      rw [hvals]
    · rw [fromArray]
      rw [map_scaleUp_scaleDown]
      have hd : (diagElems ms).length = 2 * n := by rw [diagElems_length, hmlen]
      have h12 : (m.t1Times ++ m.t2Times).length = 2 * n := by simp [hn, h2]; ring
      have h124 : ((m.t1Times ++ m.t2Times) ++ diagElems ms).length = 4 * n := by
        simp [hn, h2, diagElems_length, hmlen]; ring
      have hlen : ((((m.t1Times ++ m.t2Times) ++ diagElems ms) ++ vals).map XF.scaleDown).length
          = 4 * n + (zzPairs n).length := by
        simp [hn, h2, diagElems_length, hmlen, hvlen]; ring
      have hne2 : ¬ ((((m.t1Times ++ m.t2Times) ++ diagElems ms) ++ vals).map XF.scaleDown).length
          = 2 * n := by rw [hlen]; omega
      rw [if_neg hne2]
      have hdrop2 : (((m.t1Times ++ m.t2Times) ++ diagElems ms) ++ vals).drop (2 * n)
          = diagElems ms ++ vals := by
        rw [List.append_assoc]; exact List.drop_left' h12
      have htake2 : ((((m.t1Times ++ m.t2Times) ++ diagElems ms) ++ vals).drop (2 * n)).take (2 * n)
          = diagElems ms := by
        rw [hdrop2]; exact List.take_left' hd
      rw [htake2]
      have hbuild : buildMats n (diagElems ms) = some ms := by
        rw [← hmlen]; exact buildMats_diagElems ms hcols
      dsimp only
      rw [hbuild]
      try dsimp only
      have hne4 : ¬ ((((m.t1Times ++ m.t2Times) ++ diagElems ms) ++ vals).map XF.scaleDown).length
          = 4 * n := by rw [hlen]; omega
      rw [if_neg hne4]
      have hdrop4 : (((m.t1Times ++ m.t2Times) ++ diagElems ms) ++ vals).drop (4 * n)
          = vals := List.drop_left' h124
      try dsimp only
      rw [hdrop4]
      rw [if_pos (le_of_eq hvlen.symm)]
      congr 1
      refine congrArg₂ (fun x y => mk x y (some ms) (some ((zzPairs n).zip vals))) ?_ ?_
      · rw [List.append_assoc, List.append_assoc]; exact List.take_left' hn
      · rw [List.append_assoc, List.append_assoc, List.drop_left' hn, List.take_left' h2]
    · intro zl3 hzl3
      obtain rfl : zl = zl3 := Option.some.inj hzl3
      exact ⟨(zzPairs n).zip vals, rfl, lookupAll_zip zl (zzPairs n) vals hvals⟩

end QuacNoiseModel

theorem QuacNoiseModel.roundtrip_exact_witness :
    ∃ a m2,
      QuacNoiseModel.toArray
        ⟨[XF.fin 60000, XF.fin 70000], [XF.fin 50000, XF.fin 40000],
         some [⟨XF.fin (9/10), XF.oneSub (XF.fin (4/5)),
                XF.oneSub (XF.fin (9/10)), XF.fin (4/5)⟩,
               ⟨XF.fin (7/10), XF.oneSub (XF.fin (3/5)),
                XF.oneSub (XF.fin (7/10)), XF.fin (3/5)⟩],
         some [((0, 1), XF.fin (3/1000))]⟩ = some a ∧
      QuacNoiseModel.fromArray a 2 = some m2 ∧
      m2.t1Times = (⟨[XF.fin 60000, XF.fin 70000], [XF.fin 50000, XF.fin 40000],
         some [⟨XF.fin (9/10), XF.oneSub (XF.fin (4/5)),
                XF.oneSub (XF.fin (9/10)), XF.fin (4/5)⟩,
               ⟨XF.fin (7/10), XF.oneSub (XF.fin (3/5)),
                XF.oneSub (XF.fin (7/10)), XF.fin (3/5)⟩],
         some [((0, 1), XF.fin (3/1000))]⟩ : QuacNoiseModel).t1Times ∧
      m2.t2Times = (⟨[XF.fin 60000, XF.fin 70000], [XF.fin 50000, XF.fin 40000],
         some [⟨XF.fin (9/10), XF.oneSub (XF.fin (4/5)),
                XF.oneSub (XF.fin (9/10)), XF.fin (4/5)⟩,
               ⟨XF.fin (7/10), XF.oneSub (XF.fin (3/5)),
                XF.oneSub (XF.fin (7/10)), XF.fin (3/5)⟩],
         some [((0, 1), XF.fin (3/1000))]⟩ : QuacNoiseModel).t2Times ∧
      m2.measMatrices = (⟨[XF.fin 60000, XF.fin 70000], [XF.fin 50000, XF.fin 40000],
         some [⟨XF.fin (9/10), XF.oneSub (XF.fin (4/5)),
                XF.oneSub (XF.fin (9/10)), XF.fin (4/5)⟩,
               ⟨XF.fin (7/10), XF.oneSub (XF.fin (3/5)),
                XF.oneSub (XF.fin (7/10)), XF.fin (3/5)⟩],
         some [((0, 1), XF.fin (3/1000))]⟩ : QuacNoiseModel).measMatrices ∧
      ((⟨[XF.fin 60000, XF.fin 70000], [XF.fin 50000, XF.fin 40000],
         some [⟨XF.fin (9/10), XF.oneSub (XF.fin (4/5)),
                XF.oneSub (XF.fin (9/10)), XF.fin (4/5)⟩,
               ⟨XF.fin (7/10), XF.oneSub (XF.fin (3/5)),
                XF.oneSub (XF.fin (7/10)), XF.fin (3/5)⟩],
         some [((0, 1), XF.fin (3/1000))]⟩ : QuacNoiseModel).zz = none → m2.zz = none) ∧
      (∀ zl, (⟨[XF.fin 60000, XF.fin 70000], [XF.fin 50000, XF.fin 40000],
         some [⟨XF.fin (9/10), XF.oneSub (XF.fin (4/5)),
                XF.oneSub (XF.fin (9/10)), XF.fin (4/5)⟩,
               ⟨XF.fin (7/10), XF.oneSub (XF.fin (3/5)),
                XF.oneSub (XF.fin (7/10)), XF.fin (3/5)⟩],
         some [((0, 1), XF.fin (3/1000))]⟩ : QuacNoiseModel).zz = some zl →
        ∃ zl2, m2.zz = some zl2 ∧
          ∀ p ∈ QuacNoiseModel.zzPairs 2,
            QuacNoiseModel.zzLookup zl2 p = QuacNoiseModel.zzLookup zl p) :=
  QuacNoiseModel.roundtrip_exact _ 2 rfl rfl
    (by
      intro ms h
      obtain rfl : _ = ms := Option.some.inj h
      refine ⟨rfl, by norm_num, ?_⟩
      intro M hM
      rcases List.mem_cons.mp hM with rfl | hM2
      · exact ⟨rfl, rfl⟩
      · rcases List.mem_cons.mp hM2 with rfl | hM3
        · exact ⟨rfl, rfl⟩
        · simp at hM3)
    (by
      intro zl h
      obtain rfl : _ = zl := Option.some.inj h
      refine ⟨by norm_num, rfl, ?_⟩
      intro p hp
      have hzp : QuacNoiseModel.zzPairs 2 = [(0, 1)] := rfl
      rw [hzp] at hp
      rcases List.mem_cons.mp hp with rfl | hp2
      · rfl
      · simp at hp2)

theorem QuacNoiseModel.toArray_fromArray_scaling_witness :
    (∃ zzvals : List XF,
      ((⟨[XF.fin 1], [XF.fin 2], none, none⟩ : QuacNoiseModel).zz = none → zzvals = []) ∧
      (∀ zl, (⟨[XF.fin 1], [XF.fin 2], none, none⟩ : QuacNoiseModel).zz = some zl →
        QuacNoiseModel.lookupAll zl
          (QuacNoiseModel.zzPairs
            (⟨[XF.fin 1], [XF.fin 2], none, none⟩ : QuacNoiseModel).t1Times.length)
          = some zzvals) ∧
      [XF.fin (1 / 100000), XF.fin (2 / 100000)]
        = ((⟨[XF.fin 1], [XF.fin 2], none, none⟩ : QuacNoiseModel).t1Times
            ++ (⟨[XF.fin 1], [XF.fin 2], none, none⟩ : QuacNoiseModel).t2Times
            ++ (match (⟨[XF.fin 1], [XF.fin 2], none, none⟩ : QuacNoiseModel).measMatrices with
                | none => []
                | some ms => QuacNoiseModel.diagElems ms)
            ++ zzvals).map XF.scaleDown) ∧
    ((⟨[XF.inf], [XF.fin (3 * 100000)], none, none⟩ : QuacNoiseModel).t1Times
        = ([XF.inf, XF.fin 3].map XF.scaleUp).take 1 ∧
     (⟨[XF.inf], [XF.fin (3 * 100000)], none, none⟩ : QuacNoiseModel).t2Times
        = (([XF.inf, XF.fin 3].map XF.scaleUp).drop 1).take 1) :=
  ⟨QuacNoiseModel.toArray_fromArray_scaling.1
      ⟨[XF.fin 1], [XF.fin 2], none, none⟩
      [XF.fin (1 / 100000), XF.fin (2 / 100000)] rfl,
   QuacNoiseModel.toArray_fromArray_scaling.2 [XF.inf, XF.fin 3] 1
      ⟨[XF.inf], [XF.fin (3 * 100000)], none, none⟩ rfl⟩

theorem effLength_nonneg (dur : String → List ℕ → Option ℚ)
    (hdur : ∀ g qs t, dur g qs = some t → 0 ≤ t) (i : Instruction) :
    0 ≤ effLength dur i := by
  rw [effLength]
  split
  · norm_num
  · rcases h : dur i.name i.qubits with - | t
    · simp
    · simpa using hdur i.name i.qubits t h

theorem foldl_max_init (s : ℕ → ℚ) (l : List ℕ) (a : ℚ) :
    a ≤ l.foldl (fun acc q2 => max acc (s q2)) a := by
  induction l generalizing a with
  | nil => exact le_refl a
  | cons q rest ih => exact le_trans (le_max_left a (s q)) (ih (max a (s q)))

theorem foldl_max_mem (s : ℕ → ℚ) :
    ∀ (l : List ℕ) (a : ℚ) (q : ℕ), q ∈ l →
      s q ≤ l.foldl (fun acc q2 => max acc (s q2)) a := by
  intro l
  induction l with
  | nil => intro a q hq; simp at hq
  | cons q0 rest ih =>
    intro a q hq
    rcases List.mem_cons.mp hq with rfl | hmem
    · exact le_trans (le_max_right a (s q)) (foldl_max_init s rest _)
    · exact ih _ q hmem

theorem le_maxStart (s : ℕ → ℚ) (qs : List ℕ) (q : ℕ) (hq : q ∈ qs) :
    s q ≤ maxStart s qs := by
  cases qs with
  | nil => simp at hq
  | cons q0 rest =>
    rw [maxStart]
    rcases List.mem_cons.mp hq with rfl | hmem
    · exact foldl_max_init s rest (s q)
    · exact foldl_max_mem s rest (s q0) q hmem

theorem schedUpdate_ge (s : ℕ → ℚ) (qs : List ℕ) (t : ℚ)
    (h : ∀ q ∈ qs, s q ≤ t) (q : ℕ) : s q ≤ schedUpdate s qs t q := by
  rw [schedUpdate]
  split
  · exact h q (by assumption)
  · exact le_refl _

theorem scheduleAux_time_lb (eff : Instruction → ℚ) (hnn : ∀ i, 0 ≤ eff i) :
    ∀ (l : List (ℕ × Instruction)) (s : ℕ → ℚ),
      ∀ e ∈ scheduleAux eff l s, ∀ q ∈ e.1.2.qubits, s q ≤ e.2 := by
  intro l
  induction l with
  | nil => intro s e he; simp [scheduleAux] at he
  | cons hd rest ih =>
    intro s e he q hq
    obtain ⟨idx, ins⟩ := hd
    rw [scheduleAux] at he
    rcases List.mem_cons.mp he with rfl | hmem
    · exact le_maxStart s ins.qubits q hq
    · have hup : ∀ q2 ∈ ins.qubits,
          s q2 ≤ maxStart s ins.qubits + eff ins := fun q2 hq2 =>
        le_add_of_le_of_nonneg (le_maxStart s ins.qubits q2 hq2) (hnn ins)
      exact le_trans (schedUpdate_ge s ins.qubits _ hup q) (ih _ e hmem q hq)

theorem scheduleAux_occ (eff : Instruction → ℚ) (hnn : ∀ i, 0 ≤ eff i) :
    ∀ (l : List (ℕ × Instruction)) (s : ℕ → ℚ),
      (scheduleAux eff l s).Pairwise (fun a b =>
        ∀ q, q ∈ a.1.2.qubits → q ∈ b.1.2.qubits → a.2 + eff a.1.2 ≤ b.2) := by
  intro l
  induction l with
  | nil => intro s; simp [scheduleAux]
  | cons hd rest ih =>
    intro s
    obtain ⟨idx, ins⟩ := hd
    rw [scheduleAux]
    refine List.Pairwise.cons ?_ (ih _)
    intro f hf q hqa hqb
    have hsu : schedUpdate s ins.qubits (maxStart s ins.qubits + eff ins) q
        = maxStart s ins.qubits + eff ins := by
      rw [schedUpdate, if_pos hqa]
    calc maxStart s ins.qubits + eff ins
        = schedUpdate s ins.qubits (maxStart s ins.qubits + eff ins) q := hsu.symm
      _ ≤ f.2 := scheduleAux_time_lb eff hnn rest _ f hf q hqb

theorem scheduleAux_map_fst (eff : Instruction → ℚ) :
    ∀ (l : List (ℕ × Instruction)) (s : ℕ → ℚ),
      (scheduleAux eff l s).map Prod.fst = l := by
  intro l
  induction l with
  | nil => intro s; rfl
  | cons hd rest ih =>
    intro s
    obtain ⟨idx, ins⟩ := hd
    rw [scheduleAux]
    simp only [List.map_cons, ih]

theorem scheduleAux_ids (eff : Instruction → ℚ) (l : List (ℕ × Instruction))
    (s : ℕ → ℚ) (h : l.Pairwise (fun a b => a.1 < b.1)) :
    (scheduleAux eff l s).Pairwise (fun a b => a.1.1 < b.1.1) := by
  have hmap := scheduleAux_map_fst eff l s
  rw [← hmap] at h
  exact List.Pairwise.of_map Prod.fst (fun a b hh => hh) h

theorem enumFrom_fst_ge (l : List Instruction) :
    ∀ (k : ℕ) (e : ℕ × Instruction), e ∈ List.enumFrom k l → k ≤ e.1 := by
  induction l with
  | nil => intro k e he; simp [List.enumFrom] at he
  | cons x rest ih =>
    intro k e he
    rw [List.enumFrom] at he
    rcases List.mem_cons.mp he with rfl | hmem
    · exact le_refl k
    · exact le_trans (Nat.le_succ k) (ih (k + 1) e hmem)

theorem enumFrom_fst_lt (l : List Instruction) :
    ∀ k : ℕ, (List.enumFrom k l).Pairwise (fun a b => a.1 < b.1) := by
  induction l with
  | nil => intro k; simp [List.enumFrom]
  | cons x rest ih =>
    intro k
    rw [List.enumFrom]
    refine List.Pairwise.cons ?_ (ih (k + 1))
    intro e he
    exact lt_of_lt_of_le (Nat.lt_succ_self k) (enumFrom_fst_ge rest (k + 1) e he)

theorem orderedInsert_lex (x : (ℕ × Instruction) × ℚ) :
    ∀ L : List ((ℕ × Instruction) × ℚ),
      L.Pairwise (fun a b => a.2 < b.2 ∨ (a.2 = b.2 ∧ a.1.1 < b.1.1)) →
      (∀ y ∈ L, x.1.1 < y.1.1) →
      (List.orderedInsert (fun a b => a.2 ≤ b.2) x L).Pairwise
        (fun a b => a.2 < b.2 ∨ (a.2 = b.2 ∧ a.1.1 < b.1.1)) := by
  intro L
  induction L with
  | nil => intro _ _; simp
  | cons y L2 ih =>
    intro hL hid
    obtain ⟨hy, hL2⟩ := List.pairwise_cons.mp hL
    rw [List.orderedInsert]
    split
    · rename_i hxy
      refine List.Pairwise.cons ?_ hL
      intro z hz
      have hxz : x.2 ≤ z.2 := by
        rcases List.mem_cons.mp hz with rfl | hz2
        · exact hxy
        · rcases hy z hz2 with h | ⟨h, -⟩
          · exact le_trans hxy (le_of_lt h)
          · exact le_trans hxy (le_of_eq h)
      rcases lt_or_eq_of_le hxz with h | h
      · exact Or.inl h
      · exact Or.inr ⟨h, hid z hz⟩
    · rename_i hxy
      refine List.Pairwise.cons ?_ (ih hL2 fun y2 hy2 => hid y2 (List.mem_cons_of_mem y hy2))
      intro z hz
      rcases (List.mem_orderedInsert _).mp hz with rfl | hz2
      · exact Or.inl (lt_of_not_le hxy)
      · exact hy z hz2

theorem insertionSort_lex (l : List ((ℕ × Instruction) × ℚ))
    (hids : l.Pairwise (fun a b => a.1.1 < b.1.1)) :
    (List.insertionSort (fun a b => a.2 ≤ b.2) l).Pairwise
      (fun a b => a.2 < b.2 ∨ (a.2 = b.2 ∧ a.1.1 < b.1.1)) := by
  induction l with
  | nil => simp
  | cons x xs ih =>
    obtain ⟨hx, hxs⟩ := List.pairwise_cons.mp hids
    rw [List.insertionSort]
    refine orderedInsert_lex x _ (ih hxs) ?_
    intro y hy
    exact hx y ((List.perm_insertionSort _ xs).mem_iff.mp hy)

theorem pairwise_extract {T : ((ℕ × Instruction) × ℚ) → ((ℕ × Instruction) × ℚ) → Prop} :
    ∀ l : List ((ℕ × Instruction) × ℚ),
      l.Pairwise (fun a b => a.1.1 < b.1.1) → l.Pairwise T →
      ∀ a ∈ l, ∀ b ∈ l, a.1.1 < b.1.1 → T a b := by
  intro l
  induction l with
  | nil => intro _ _ a ha; simp at ha
  | cons x xs ih =>
    intro hid hT a ha b hb hab
    obtain ⟨hidx, hidxs⟩ := List.pairwise_cons.mp hid
    obtain ⟨hTx, hTxs⟩ := List.pairwise_cons.mp hT
    rcases List.mem_cons.mp ha with rfl | ha2
    · rcases List.mem_cons.mp hb with rfl | hb2
      · exact absurd hab (lt_irrefl _)
      · exact hTx b hb2
    · rcases List.mem_cons.mp hb with rfl | hb2
      · exact absurd (lt_trans hab (hidx a ha2)) (lt_irrefl _)
      · exact ih hidxs hTxs a ha2 b hb2 hab

theorem eq_of_id_eq :
    ∀ l : List ((ℕ × Instruction) × ℚ),
      l.Pairwise (fun a b => a.1.1 < b.1.1) →
      ∀ a ∈ l, ∀ b ∈ l, a.1.1 = b.1.1 → a = b := by
  intro l
  induction l with
  | nil => intro _ a ha; simp at ha
  | cons x xs ih =>
    intro hid a ha b hb hab
    obtain ⟨hidx, hidxs⟩ := List.pairwise_cons.mp hid
    rcases List.mem_cons.mp ha with rfl | ha2
    · rcases List.mem_cons.mp hb with rfl | hb2
      · rfl
      · exact absurd (hab ▸ hidx b hb2) (lt_irrefl _)
    · rcases List.mem_cons.mp hb with rfl | hb2
      · exact absurd (hab ▸ hidx a ha2) (lt_irrefl _)
      · exact ih hidxs a ha2 b hb2 hab

/-- C3: for every instruction list (with the usual validity requirement that
instructions touch at least one qubit) and every duration lookup returning
non-negative nanosecond durations, the output of `list_schedule_experiment`
is a permutation of the scheduled program and is pairwise ordered by start
time ascending with ties broken by original program order (stable sort),
and any two entries sharing a qubit satisfy the occupancy invariant: the
later start time is at least the earlier start time plus the earlier
instruction's duration. -/
theorem listScheduleExperiment_invariant (instrs : List Instruction)
    (dur : String → List ℕ → Option ℚ)
    (hdur : ∀ g qs t, dur g qs = some t → 0 ≤ t)
    (_hq : ∀ i ∈ instrs, i.qubits ≠ []) :
    (listScheduleExperiment instrs dur).Perm (preSchedule instrs dur) ∧
    (listScheduleExperiment instrs dur).Pairwise (fun a b =>
      (a.2 < b.2 ∨ (a.2 = b.2 ∧ a.1.1 < b.1.1)) ∧
      ∀ q, q ∈ a.1.2.qubits → q ∈ b.1.2.qubits →
        a.2 + effLength dur a.1.2 ≤ b.2) := by
  have hnn : ∀ i, 0 ≤ effLength dur i := effLength_nonneg dur hdur
  have henum : instrs.enum.Pairwise (fun a b => a.1 < b.1) := enumFrom_fst_lt instrs 0
  have hidspre : (preSchedule instrs dur).Pairwise (fun a b => a.1.1 < b.1.1) :=
    scheduleAux_ids _ _ _ henum
  have hocc : (preSchedule instrs dur).Pairwise (fun a b =>
      ∀ q, q ∈ a.1.2.qubits → q ∈ b.1.2.qubits →
        a.2 + effLength dur a.1.2 ≤ b.2) :=
    scheduleAux_occ (effLength dur) hnn instrs.enum _
  have hperm : (listScheduleExperiment instrs dur).Perm (preSchedule instrs dur) :=
    List.perm_insertionSort _ _
  have hlex : (listScheduleExperiment instrs dur).Pairwise
      (fun a b => a.2 < b.2 ∨ (a.2 = b.2 ∧ a.1.1 < b.1.1)) :=
    insertionSort_lex _ hidspre
  refine ⟨hperm, List.Pairwise.and hlex ?_⟩
  refine hlex.imp_of_mem ?_
  intro a b ha hb hLex
  have hapre : a ∈ preSchedule instrs dur := hperm.mem_iff.mp ha
  have hbpre : b ∈ preSchedule instrs dur := hperm.mem_iff.mp hb
  rcases hLex with hlt | ⟨-, hid⟩
  · by_cases hid2 : a.1.1 < b.1.1
    · exact pairwise_extract _ hidspre hocc a hapre b hbpre hid2
    · intro q hqa hqb
      rcases lt_or_eq_of_le (not_lt.mp hid2) with hba | hba
      · have hbax := pairwise_extract _ hidspre hocc b hbpre a hapre hba q hqb hqa
        have := hnn b.1.2
        linarith
      · have : b = a := eq_of_id_eq _ hidspre b hbpre a hapre hba
        subst this
        exact absurd hlt (lt_irrefl _)
  · exact pairwise_extract _ hidspre hocc a hapre b hbpre hid

theorem listScheduleExperiment_invariant_witness :
    (listScheduleExperiment
      [⟨"h", [0], [], []⟩, ⟨"cx", [0, 1], [], []⟩,
       ⟨"measure", [0], [0], []⟩, ⟨"measure", [1], [1], []⟩]
      (fun name _ => if name = "h" then some 50
        else if name = "cx" then some 300 else none)).Perm
      (preSchedule
        [⟨"h", [0], [], []⟩, ⟨"cx", [0, 1], [], []⟩,
         ⟨"measure", [0], [0], []⟩, ⟨"measure", [1], [1], []⟩]
        (fun name _ => if name = "h" then some 50
          else if name = "cx" then some 300 else none)) ∧
    (listScheduleExperiment
      [⟨"h", [0], [], []⟩, ⟨"cx", [0, 1], [], []⟩,
       ⟨"measure", [0], [0], []⟩, ⟨"measure", [1], [1], []⟩]
      (fun name _ => if name = "h" then some 50
        else if name = "cx" then some 300 else none)).Pairwise (fun a b =>
      (a.2 < b.2 ∨ (a.2 = b.2 ∧ a.1.1 < b.1.1)) ∧
      ∀ q, q ∈ a.1.2.qubits → q ∈ b.1.2.qubits →
        a.2 + effLength (fun name _ => if name = "h" then some 50
          else if name = "cx" then some 300 else none) a.1.2 ≤ b.2) :=
  listScheduleExperiment_invariant _ _
    (by
      intro g qs t h
      by_cases h1 : g = "h"
      · simp [h1] at h; rw [← h]; norm_num
      · by_cases h2 : g = "cx"
        · simp [h1, h2] at h; rw [← h]; norm_num
        · simp [h1, h2] at h)
    (by
      intro i hi
      rcases List.mem_cons.mp hi with rfl | hi2
      · simp
      · rcases List.mem_cons.mp hi2 with rfl | hi3
        · simp
        · rcases List.mem_cons.mp hi3 with rfl | hi4
          · simp
          · rcases List.mem_cons.mp hi4 with rfl | hi5
            · simp
            · simp at hi5)

theorem sum_range_divmod (m n : ℕ) (g : ℕ → ℕ → ℚ) :
    ∑ i ∈ Finset.range (m * n), g (i / n) (i % n)
      = ∑ a ∈ Finset.range m, ∑ b ∈ Finset.range n, g a b := by
  rcases Nat.eq_zero_or_pos n with rfl | hn
  · simp
  · induction m with
    | zero => simp
    | succ m ih =>
      rw [Nat.succ_mul, Finset.sum_range_add, ih, Finset.sum_range_succ]
      congr 1
      apply Finset.sum_congr rfl
      intro j hj
      have hjn : j < n := Finset.mem_range.mp hj
      rw [Nat.add_comm (m * n) j, Nat.add_mul_div_right j m hn,
        Nat.add_mul_mod_self_right, Nat.div_eq_of_lt hjn, Nat.mod_eq_of_lt hjn,
        Nat.zero_add]

theorem colStochastic_matOne : colStochastic matOne := by
  intro j hj
  simp [matOne]

theorem colStochastic_eyeMat (n : ℕ) : colStochastic (eyeMat n) := by
  intro j hj
  simp only [eyeMat]
  rw [Finset.sum_ite_eq' (Finset.range n) j fun _ => (1 : ℚ)]
  have hj2 : j < n := hj
  simp [Finset.mem_range.mpr hj2]

theorem colStochastic_kron {A B : Mat} (hA : colStochastic A) (hB : colStochastic B) :
    colStochastic (kron A B) := by
  intro j hj
  have hBc : 0 < B.cols := by
    rcases Nat.eq_zero_or_pos B.cols with h0 | h0
    · rw [kron] at hj; simp [h0] at hj
    · exact h0
  have hAc : j / B.cols < A.cols :=
    (Nat.div_lt_iff_lt_mul hBc).mpr hj
  have hBm : j % B.cols < B.cols := Nat.mod_lt _ hBc
  simp only [kron]
  rw [sum_range_divmod A.rows B.rows
    (fun a b => A.entry a (j / B.cols) * B.entry b (j % B.cols))]
  rw [← Finset.sum_mul_sum]
  rw [hA _ hAc, hB _ hBm, one_mul]

theorem foldl_kron_cs (f : ℕ → Mat) :
    ∀ (l : List ℕ) (A : Mat), colStochastic A → (∀ x ∈ l, colStochastic (f x)) →
      colStochastic (l.foldl (fun acc ind => kron acc (f ind)) A) := by
  intro l
  induction l with
  | nil => intro A hA _; exact hA
  | cons x rest ih =>
    intro A hA hf
    rw [List.foldl_cons]
    exact ih (kron A (f x))
      (colStochastic_kron hA (hf x (List.mem_cons_self x rest)))
      fun y hy => hf y (List.mem_cons_of_mem x hy)

theorem foldl_kron_dims (f : ℕ → Mat) (hf : ∀ x, (f x).rows = 2 ∧ (f x).cols = 2) :
    ∀ (l : List ℕ) (A : Mat),
      (l.foldl (fun acc ind => kron acc (f ind)) A).rows = A.rows * 2 ^ l.length ∧
      (l.foldl (fun acc ind => kron acc (f ind)) A).cols = A.cols * 2 ^ l.length := by
  intro l
  induction l with
  | nil => intro A; constructor <;> simp
  | cons x rest ih =>
    intro A
    rw [List.foldl_cons]
    obtain ⟨h1, h2⟩ := ih (kron A (f x))
    constructor
    · rw [h1]
      show A.rows * (f x).rows * 2 ^ rest.length = A.rows * 2 ^ (x :: rest).length
      rw [(hf x).1, List.length_cons, pow_succ]
      ring
    · rw [h2]
      show A.cols * (f x).cols * 2 ^ rest.length = A.cols * 2 ^ (x :: rest).length
      rw [(hf x).2, List.length_cons, pow_succ]
      ring

theorem expandedMeasMat_props (n qubit : ℕ) (M : Mat)
    (hr : M.rows = 2) (hc : M.cols = 2) (hcs : colStochastic M) :
    (expandedMeasMat n qubit M).rows = 2 ^ n ∧
    (expandedMeasMat n qubit M).cols = 2 ^ n ∧
    colStochastic (expandedMeasMat n qubit M) := by
  have hf : ∀ x, ((if qubit = x then M else eyeMat 2)).rows = 2 ∧
      ((if qubit = x then M else eyeMat 2)).cols = 2 := by
    intro x
    split
    · exact ⟨hr, hc⟩
    · exact ⟨rfl, rfl⟩
  obtain ⟨h1, h2⟩ := foldl_kron_dims _ hf (List.range n) matOne
  refine ⟨?_, ?_, ?_⟩
  · rw [expandedMeasMat, h1]
    simp [matOne]
  · rw [expandedMeasMat, h2]
    simp [matOne]
  · rw [expandedMeasMat]
    refine foldl_kron_cs _ (List.range n) matOne colStochastic_matOne ?_
    intro x _
    split
    · exact hcs
    · exact colStochastic_eyeMat 2

theorem buildFull_props (n : ℕ) (mats : List Mat) (hlen : mats.length = n)
    (h : ∀ M ∈ mats, M.rows = 2 ∧ M.cols = 2 ∧ colStochastic M) :
    ∀ E ∈ buildFullMeasurementMatrices n mats,
      E.rows = 2 ^ n ∧ E.cols = 2 ^ n ∧ colStochastic E := by
  intro E hE
  rw [buildFullMeasurementMatrices] at hE
  obtain ⟨q, hq, rfl⟩ := List.mem_map.mp hE
  have hq2 : q < mats.length := by
    rw [hlen]; exact List.mem_range.mp hq
  have hgd : mats.getD q (eyeMat 2) ∈ mats := by
    rw [List.getD_eq_getElem mats (eyeMat 2) hq2]
    exact List.getElem_mem hq2
  obtain ⟨hr, hc, hcs⟩ := h _ hgd
  exact expandedMeasMat_props n q _ hr hc hcs

theorem sumVec_matVec (A : Mat) (v : Vec) (hA : colStochastic A)
    (hlen : v.len = A.cols) : sumVec (matVec A v) = sumVec v := by
  simp only [sumVec, matVec]
  rw [Finset.sum_comm]
  have h : ∀ j ∈ Finset.range A.cols,
      (∑ i ∈ Finset.range A.rows, A.entry i j * v.entry j) = v.entry j := by
    intro j hj
    rw [← Finset.sum_mul, hA j (Finset.mem_range.mp hj), one_mul]
  rw [Finset.sum_congr rfl h, hlen]

theorem sumVec_applyMeas (N : ℕ) :
    ∀ (ms : List Mat) (v : Vec),
      (∀ M ∈ ms, M.rows = N ∧ M.cols = N ∧ colStochastic M) → v.len = N →
      sumVec (applyMeasCorrections ms v) = sumVec v ∧
      (applyMeasCorrections ms v).len = N := by
  intro ms
  induction ms with
  | nil => intro v _ hv; exact ⟨rfl, hv⟩
  | cons M rest ih =>
    intro v hms hv
    obtain ⟨hr, hc, hcs⟩ := hms M (List.mem_cons_self M rest)
    have hstep : applyMeasCorrections (M :: rest) v
        = applyMeasCorrections rest (matVec M v) := rfl
    have h1 : sumVec (matVec M v) = sumVec v :=
      sumVec_matVec M v hcs (hv.trans hc.symm)
    have h2 : (matVec M v).len = N := hr
    obtain ⟨ha, hb⟩ := ih (matVec M v)
      (fun M2 hM2 => hms M2 (List.mem_cons_of_mem M hM2)) h2
    exact ⟨by rw [hstep, ha, h1], by rw [hstep]; exact hb⟩

theorem tableSum_bump (t : List (String × ℚ)) (k : String) (p : ℚ) :
    tableSum (bumpTable t k p) = tableSum t + p := by
  induction t with
  | nil => simp [bumpTable, tableSum]
  | cons e rest ih =>
    obtain ⟨k2, v⟩ := e
    rw [bumpTable]
    split
    · simp [tableSum]; ring
    · simp only [tableSum, List.map_cons, List.sum_cons] at ih ⊢
      rw [ih]; ring

theorem tableSum_foldl (key : ℕ → String) (val : ℕ → ℚ) :
    ∀ (states : List ℕ) (t : List (String × ℚ)),
      tableSum (states.foldl (fun acc s2 => bumpTable acc (key s2) (val s2)) t)
        = tableSum t + (states.map val).sum := by
  intro states
  induction states with
  | nil => intro t; simp
  | cons s states2 ih =>
    intro t
    rw [List.foldl_cons, ih, tableSum_bump]
    simp [add_assoc]

theorem list_range_map_sum (n : ℕ) (f : ℕ → ℚ) :
    ((List.range n).map f).sum = ∑ i ∈ Finset.range n, f i := by
  induction n with
  | zero => simp
  | succ n ih =>
    rw [List.range_succ, List.map_append, List.sum_append,
      Finset.sum_range_succ, ih]
    simp

/-- C5: the probability mass of the density-mode output table equals the
total mass of the engine's probability vector: register remapping
accumulates every state's probability under exactly one key, and the
measurement correction (Kronecker-expanded column-stochastic matrices
applied as successive left-multiplications) preserves column sums. -/
theorem densityTable_mass_conserved (n memSlots : ℕ) (qm : List (ℕ × List ℕ))
    (v : Vec) (measMats : Option (List Mat)) (hv : v.len = 2 ^ n)
    (hm : ∀ mats, measMats = some mats → mats.length = n ∧
        ∀ M ∈ mats, M.rows = 2 ∧ M.cols = 2 ∧ colStochastic M)
    (_hslots : ∀ e ∈ qm, ∀ s2 ∈ e.2, s2 < memSlots) :
    tableSum (densityTable n memSlots qm (correctedProbs measMats n v))
      = sumVec v := by
  have key : ∀ w : Vec, tableSum (densityTable n memSlots qm w) = sumVec w := by
    intro w
    rw [densityTable, tableSum_foldl (stateKey n memSlots qm) w.entry]
    simp [tableSum, list_range_map_sum, sumVec]
  rw [key]
  rcases measMats with - | mats
  · rfl
  · obtain ⟨hlen, hprops⟩ := hm mats rfl
    rw [correctedProbs]
    exact (sumVec_applyMeas (2 ^ n) (buildFullMeasurementMatrices n mats) v
      (buildFull_props n mats hlen hprops) hv).1

theorem densityTable_mass_conserved_witness :
    tableSum (densityTable 1 1 [(0, [0])]
      (correctedProbs
        (some [⟨2, 2, fun i j => if i = 0 then (if j = 0 then 9/10 else 1/5)
          else (if j = 0 then 1/10 else 4/5)⟩]) 1
        ⟨2, fun i => if i = 0 then 1/3 else 2/3⟩))
      = sumVec ⟨2, fun i => if i = 0 then 1/3 else 2/3⟩ :=
  densityTable_mass_conserved 1 1 [(0, [0])]
    ⟨2, fun i => if i = 0 then 1/3 else 2/3⟩
    (some [⟨2, 2, fun i j => if i = 0 then (if j = 0 then 9/10 else 1/5)
      else (if j = 0 then 1/10 else 4/5)⟩])
    (by norm_num)
    (by
      intro mats h
      obtain rfl : _ = mats := Option.some.inj h
      refine ⟨rfl, ?_⟩
      intro M hM
      rcases List.mem_cons.mp hM with rfl | h2
      · refine ⟨rfl, rfl, ?_⟩
        intro j hj
        have hj2 : j < 2 := hj
        interval_cases j <;> norm_num [Finset.sum_range_succ]
      · simp at h2)
    (by
      intro e he s2 hs2
      simp only [List.mem_singleton] at he
      subst he
      simp only [List.mem_singleton] at hs2
      omega)

theorem gateEvents_addGate (i : Instruction) (t : ℚ) :
    ∀ e ∈ gateEvents i t, ∃ g qs ps, e = EngineEvent.addGate g qs t ps := by
  intro e he
  rw [gateEvents] at he
  repeat' split at he
  all_goals
    first
      | exact absurd he (List.not_mem_nil e)
      | (rw [List.mem_singleton] at he; exact ⟨_, _, _, he⟩)

theorem processInstructions_no_measure :
    ∀ (l : List (Instruction × ℚ)) (qm : List (ℕ × List ℕ)),
      (∀ p ∈ l, p.1.name ≠ "measure") → (processInstructions l qm).2 = qm := by
  intro l
  induction l with
  | nil => intro qm _; rfl
  | cons p rest ih =>
    intro qm h
    obtain ⟨i, t⟩ := p
    rw [processInstructions]
    have hname : i.name ≠ "measure" := h (i, t) (List.mem_cons_self _ _)
    dsimp only
    rw [if_neg hname]
    exact ih qm fun p2 hp2 => h p2 (List.mem_cons_of_mem _ hp2)

theorem processInstructions_events :
    ∀ (l : List (Instruction × ℚ)) (qm : List (ℕ × List ℕ)),
      ∀ e ∈ (processInstructions l qm).1, ∃ g qs t ps, e = EngineEvent.addGate g qs t ps := by
  intro l
  induction l with
  | nil => intro qm e he; simp [processInstructions] at he
  | cons p rest ih =>
    intro qm e he
    obtain ⟨i, t⟩ := p
    rw [processInstructions] at he
    dsimp only at he
    rcases List.mem_append.mp he with h1 | h2
    · obtain ⟨g, qs, ps, rfl⟩ := gateEvents_addGate i t e h1
      exact ⟨g, qs, t, ps, rfl⟩
    · exact ih _ e h2

theorem mem_sched_instr (eff : Instruction → ℚ) (instrs : List Instruction)
    (s : ℕ → ℚ) (e : (ℕ × Instruction) × ℚ)
    (he : e ∈ List.insertionSort (fun a b => a.2 ≤ b.2)
      (scheduleAux eff instrs.enum s)) : e.1.2 ∈ instrs := by
  have h1 : e ∈ scheduleAux eff instrs.enum s :=
    (List.perm_insertionSort _ _).mem_iff.mp he
  have h2 : e.1 ∈ instrs.enum := by
    have := List.mem_map_of_mem Prod.fst h1
    rwa [scheduleAux_map_fst] at this
  have := List.mem_map_of_mem Prod.snd h2
  rwa [List.enum_map_snd] at this

/-- C4 counterexample: for the measurement-free circuit `[H(q0)]` (with
hardware configured so the options check passes), the adapter does raise the
no-measurement error — but only after invoking the engine: a
`quac.Instance()` is constructed, the engine circuit is initialized, and the
`h` gate is added to it before the error, so "the external engine is never
invoked" is false. -/
theorem runExperiment_no_measurement_counterexample :
    (runExperiment ⟨true, fun _ _ => none, fun _ => 1, fun _ => 1⟩
      ⟨none, false, [], none, none⟩ ⟨1, 1, [⟨"h", [0], [], []⟩]⟩).2
      = Except.error QuacError.noMeasurement ∧
    EngineEvent.addGate "h" [0] 1 []
      ∈ (runExperiment ⟨true, fun _ _ => none, fun _ => 1, fun _ => 1⟩
        ⟨none, false, [], none, none⟩ ⟨1, 1, [⟨"h", [0], [], []⟩]⟩).1 := by
  have htr : (runExperiment ⟨true, fun _ _ => none, fun _ => 1, fun _ => 1⟩
      ⟨none, false, [], none, none⟩ ⟨1, 1, [⟨"h", [0], [], []⟩]⟩).1
      = [EngineEvent.createInstance, EngineEvent.circuitInit 1,
         EngineEvent.addGate "h" [0] 1 []] := rfl
  constructor
  · rfl
  · rw [htr]
    simp

/-- C4 (amended): a measurement-free experiment always ends in the
no-measurement error and never reaches the simulation stage — no qubits are
created and the engine is never run, so no result is produced — but the
fail-fast portion of the claim is weakened: engine circuit-construction
calls (instance creation, circuit initialization, gate additions) do occur
before the error is raised. -/
theorem runExperiment_no_measurement (cfg : SimConfig) (rc : RunConfig)
    (exp : Experiment)
    (hopts : (!cfg.hardwareSpecified && !rc.lindblad.isSome && !rc.noNoise) = false)
    (hnomeas : ∀ i ∈ exp.instructions, i.name ≠ "measure") :
    (runExperiment cfg rc exp).2 = Except.error QuacError.noMeasurement ∧
    (∀ L dt, EngineEvent.run L dt ∉ (runExperiment cfg rc exp).1) ∧
    (∀ k, EngineEvent.createQubits k ∉ (runExperiment cfg rc exp).1) := by
  have hnmAll : ∀ (s : ℕ → ℚ) p, p ∈ (List.insertionSort (fun a b => a.2 ≤ b.2)
        (scheduleAux (fun i => ((cfg.duration i.name i.qubits).getD 0))
          exp.instructions.enum s)).map (fun e => (e.1.2, e.2)) →
      p.1.name ≠ "measure" := by
    intro s p hp
    obtain ⟨e, he, rfl⟩ := List.mem_map.mp hp
    exact hnomeas _ (mem_sched_instr _ _ _ e he)
  have hqm : (processInstructions
      ((List.insertionSort (fun a b => a.2 ≤ b.2)
        (scheduleAux (fun i => ((cfg.duration i.name i.qubits).getD 0))
          exp.instructions.enum fun _ => 1)).map fun e => (e.1.2, e.2)) []).2 = [] :=
    processInstructions_no_measure _ [] (hnmAll _)
  have hres : runExperiment cfg rc exp =
      ([EngineEvent.createInstance, EngineEvent.circuitInit exp.instructions.length]
        ++ (processInstructions
          ((List.insertionSort (fun a b => a.2 ≤ b.2)
            (scheduleAux (fun i => ((cfg.duration i.name i.qubits).getD 0))
              exp.instructions.enum fun _ => 1)).map fun e => (e.1.2, e.2)) []).1,
       Except.error QuacError.noMeasurement) := by
    rw [runExperiment, hopts]
    simp only [Bool.false_eq_true, if_false]
    try dsimp only
    rw [hqm]
    simp only [List.length_nil]
    rw [if_pos trivial]
    rfl
  refine ⟨by rw [hres], ?_, ?_⟩
  · intro L dt hmem
    rw [hres] at hmem
    rcases List.mem_append.mp hmem with h | h
    · simp at h
    · obtain ⟨g, qs, t, ps, heq⟩ := processInstructions_events _ _ _ h
      exact absurd heq (by simp)
  · intro k hmem
    rw [hres] at hmem
    rcases List.mem_append.mp hmem with h | h
    · simp at h
    · obtain ⟨g, qs, t, ps, heq⟩ := processInstructions_events _ _ _ h
      exact absurd heq (by simp)

theorem runExperiment_no_measurement_witness :
    (runExperiment ⟨true, fun _ _ => none, fun _ => 1, fun _ => 1⟩
      ⟨none, false, [], none, none⟩
      ⟨2, 1, [⟨"h", [0], [], []⟩, ⟨"cx", [0, 1], [], []⟩]⟩).2
      = Except.error QuacError.noMeasurement ∧
    (∀ L dt, EngineEvent.run L dt
      ∉ (runExperiment ⟨true, fun _ _ => none, fun _ => 1, fun _ => 1⟩
        ⟨none, false, [], none, none⟩
        ⟨2, 1, [⟨"h", [0], [], []⟩, ⟨"cx", [0, 1], [], []⟩]⟩).1) ∧
    (∀ k, EngineEvent.createQubits k
      ∉ (runExperiment ⟨true, fun _ _ => none, fun _ => 1, fun _ => 1⟩
        ⟨none, false, [], none, none⟩
        ⟨2, 1, [⟨"h", [0], [], []⟩, ⟨"cx", [0, 1], [], []⟩]⟩).1) :=
  runExperiment_no_measurement _ _ _ rfl
    (by
      intro i hi
      rcases List.mem_cons.mp hi with rfl | hi2
      · simp
      · rcases List.mem_cons.mp hi2 with rfl | hi3
        · simp
        · simp at hi3)

theorem noSchedAux_short (cfg : SimConfig) (gts : List ℚ) (hgt : gts ≠ []) :
    ∀ (instrs : List Instruction) (k : ℕ) (total prev : ℚ)
      (qm : List (ℕ × List ℕ)),
      k ≤ gts.length → gts.length < k + instrs.length →
      (noSchedAux cfg gts (List.enumFrom k instrs) total prev qm).2
          = Except.error QuacError.insufficientTiming ∧
      ∀ L dt, EngineEvent.run L dt
        ∉ (noSchedAux cfg gts (List.enumFrom k instrs) total prev qm).1 := by
  intro instrs
  induction instrs with
  | nil =>
    intro k total prev qm hk hlt
    exact absurd hlt (by simp; omega)
  | cons i rest ih =>
    intro k total prev qm hk hlt
    rw [List.enumFrom, noSchedAux, if_pos hgt]
    rcases Nat.lt_or_ge k gts.length with hklt | hkge
    · obtain ⟨t, ht⟩ : ∃ t, gts.get? k = some t :=
        ⟨gts.get ⟨k, hklt⟩, List.get?_eq_get hklt⟩
      rw [ht]
      dsimp only
      obtain ⟨h1, h2⟩ := ih (k + 1) total t
        (if i.name = "measure" then addMeas qm (i.qubits.headD 0) (i.memory.headD 0)
         else qm)
        (by omega) (by simp at hlt ⊢; omega)
      refine ⟨h1, ?_⟩
      intro L dt hmem
      rcases List.mem_append.mp hmem with h | h
      · obtain ⟨g, qs, ps, heq⟩ := gateEvents_addGate i t _ h
        exact absurd heq (by simp)
      · exact h2 L dt h
    · have hnone : gts.get? k = none := List.get?_eq_none.mpr hkge
      rw [hnone]
      exact ⟨rfl, by intro L dt hmem; simp at hmem⟩

/-- C8 (amended, positive part): in the no-scheduling run path, supplying a
nonempty per-gate time list shorter than the instruction count raises the
insufficient-timing error (`"Not enough gate times specified!"`) and the
engine is never run. -/
theorem runExperimentNoScheduling_short_gate_times (cfg : SimConfig)
    (rc : RunConfig) (exp : Experiment)
    (hopts : (!cfg.hardwareSpecified && !rc.lindblad.isSome && !rc.noNoise) = false)
    (hgt : rc.gateTimes ≠ [])
    (hshort : rc.gateTimes.length < exp.instructions.length) :
    (runExperimentNoScheduling cfg rc exp).2
        = Except.error QuacError.insufficientTiming ∧
    ∀ L dt, EngineEvent.run L dt ∉ (runExperimentNoScheduling cfg rc exp).1 := by
  obtain ⟨h1, h2⟩ := noSchedAux_short cfg rc.gateTimes hgt exp.instructions 0 1 0 []
    (Nat.zero_le _) (by omega)
  have henum : exp.instructions.enum = List.enumFrom 0 exp.instructions := rfl
  have hres : runExperimentNoScheduling cfg rc exp =
      ([EngineEvent.createInstance, EngineEvent.circuitInit exp.instructions.length]
        ++ (noSchedAux cfg rc.gateTimes (List.enumFrom 0 exp.instructions) 1 0 []).1,
       Except.error QuacError.insufficientTiming) := by
    rw [runExperimentNoScheduling, hopts]
    simp only [Bool.false_eq_true, if_false]
    try dsimp only
    rw [henum]
    rcases hr : noSchedAux cfg rc.gateTimes (List.enumFrom 0 exp.instructions) 1 0 []
      with ⟨tr, res⟩
    have hres2 : res = Except.error QuacError.insufficientTiming := by
      rw [hr] at h1; exact h1
    subst hres2
    rfl
  refine ⟨by rw [hres], ?_⟩
  intro L dt hmem
  rw [hres] at hmem
  rcases List.mem_append.mp hmem with h | h
  · simp at h
  · exact h2 L dt h

theorem runExperimentNoScheduling_short_gate_times_witness :
    (runExperimentNoScheduling ⟨true, fun _ _ => none, fun _ => 1, fun _ => 1⟩
      ⟨none, false, [5], none, none⟩
      ⟨1, 1, [⟨"h", [0], [], []⟩, ⟨"measure", [0], [0], []⟩]⟩).2
        = Except.error QuacError.insufficientTiming ∧
    ∀ L dt, EngineEvent.run L dt
      ∉ (runExperimentNoScheduling ⟨true, fun _ _ => none, fun _ => 1, fun _ => 1⟩
        ⟨none, false, [5], none, none⟩
        ⟨1, 1, [⟨"h", [0], [], []⟩, ⟨"measure", [0], [0], []⟩]⟩).1 :=
  runExperimentNoScheduling_short_gate_times _ _ _ rfl (by simp) (by simp)

/-- C8 counterexample: in the scheduled run path (the one the simulators
use), a run with a per-gate time list `[5]` shorter than the 2-instruction
circuit AND an explicit `simulation_length = 1` far below the last scheduled
instruction time (51 ns) raises no error at all: the engine is run for
length 1 and a result mapping is produced. -/
theorem runExperiment_no_timing_validation_counterexample :
    (runExperiment ⟨true, fun name _ => if name = "h" then some 50 else none,
        fun _ => 1, fun _ => 1⟩
      ⟨none, false, [5], some 1, none⟩
      ⟨1, 1, [⟨"h", [0], [], []⟩, ⟨"measure", [0], [0], []⟩]⟩).2
      = Except.ok [(0, [0])] ∧
    EngineEvent.run 1 10
      ∈ (runExperiment ⟨true, fun name _ => if name = "h" then some 50 else none,
          fun _ => 1, fun _ => 1⟩
        ⟨none, false, [5], some 1, none⟩
        ⟨1, 1, [⟨"h", [0], [], []⟩, ⟨"measure", [0], [0], []⟩]⟩).1 := by
  constructor
  · norm_num +decide [runExperiment, scheduleAux, maxStart, schedUpdate,
      processInstructions, gateEvents, addMeas, List.insertionSort,
      List.orderedInsert, List.enum, List.enumFrom, optTruthy]
  · norm_num +decide [runExperiment, scheduleAux, maxStart, schedUpdate,
      processInstructions, gateEvents, addMeas, noiseEvents, lindbladTimes,
      XF.invRate, finalSched, List.insertionSort, List.orderedInsert,
      List.enum, List.enumFrom, optTruthy]
